import Mathlib

/-!
Verification development for the job-search / resume-tailoring application
(`app/job_finder.py`, `app/resume_modifier.py`).

Text is modelled as `List Char` (abbreviated `Str`); the helpers below embed
the Python string primitives the sources use (`str.strip`, `str.lower`,
`str.split`, `str.splitlines`, `str.isupper`, substring containment, `" ".join`).
The embedding models `'\n'` as the line terminator and ASCII case semantics,
which covers the text the application manipulates.  Python `float` match
scores are modelled as `Nat`: the code only ever stores `float(score)` for a
small non-negative integer count, where the conversion is exact and `float`
comparison agrees with `Nat` comparison.
-/

/-- Text, modelled as a list of characters. -/
abbrev Str := List Char

namespace Py

/-- Python whitespace for `str.strip()` / `str.split()` (ASCII range). -/
def isSpace (c : Char) : Bool :=
  c = ' ' || c = '\t' || c = '\n' || c = '\r' || c = '\x0b' || c = '\x0c'

/-- Drop trailing characters satisfying `p`. -/
def dropTrailing (p : Char → Bool) (l : Str) : Str :=
  (l.reverse.dropWhile p).reverse

/-- Python `str.strip()`: remove leading and trailing whitespace. -/
def strip (l : Str) : Str :=
  dropTrailing isSpace (l.dropWhile isSpace)

/-- Python `str.strip(chars)`: remove leading and trailing characters that
belong to the set `chars` (note: a character set, not a prefix/suffix). -/
def stripChars (chars : Str) (l : Str) : Str :=
  dropTrailing (fun c => chars.contains c) (l.dropWhile (fun c => chars.contains c))

/-- Python `str.lower()` (ASCII case mapping). -/
def lower (l : Str) : Str :=
  l.map Char.toLower

/-- Python `str.upper()` (ASCII case mapping). -/
def upper (l : Str) : Str :=
  l.map Char.toUpper

/-- Split a list at every occurrence of a separator character.
`splitChar ',' "a,b" = ["a", "b"]`, `splitChar ',' "" = [""]`. -/
def splitChar (sep : Char) : Str → List Str
  | [] => [[]]
  | c :: cs =>
    let rest := splitChar sep cs
    if c = sep then [] :: rest
    else match rest with
      | [] => [[c]]
      | r :: rs => (c :: r) :: rs

/-- Split at every character satisfying `p` (used for Python `str.split()`
with no arguments, together with discarding empty pieces). -/
def splitPred (p : Char → Bool) : Str → List Str
  | [] => [[]]
  | c :: cs =>
    let rest := splitPred p cs
    if p c then [] :: rest
    else match rest with
      | [] => [[c]]
      | r :: rs => (c :: r) :: rs

/-- Python `str.split()` with no arguments: split on whitespace runs,
discarding empty pieces. -/
def splitWs (l : Str) : List Str :=
  (splitPred isSpace l).filter (fun s => s ≠ [])

/-- Python `str.splitlines()` for `'\n'`-terminated text: a terminal newline
does not produce a trailing empty line, and the empty string has no lines. -/
def splitlines (l : Str) : List Str :=
  if l = [] then []
  else if l.getLast? = some '\n' then (splitChar '\n' l).dropLast
  else splitChar '\n' l

/-- Python `str.isupper()` (ASCII): at least one letter, and no lowercase
letter anywhere. -/
def isUpper (l : Str) : Bool :=
  l.any Char.isAlpha && l.all (fun c => !c.isLower)

/-- Python `sep.join(parts)`. -/
def join (sep : Str) : List Str → Str
  | [] => []
  | [x] => x
  | x :: xs => x ++ sep ++ join sep xs

/-- Python `pat in text`: substring containment (the empty pattern is
contained in everything). -/
def contains (pat : Str) : Str → Bool
  | [] => pat.isEmpty
  | c :: cs => pat.isPrefixOf (c :: cs) || contains pat cs

/-- Python truthiness of an optional string (`None` and `""` are falsy). -/
def truthy : Option Str → Bool
  | none => false
  | some s => s ≠ []

end Py

section PyLemmas

/-- `contains` holds exactly when the pattern occurs at some split point. -/
theorem Py.contains_iff (pat l : Str) :
    Py.contains pat l = true ↔ ∃ pre post, l = pre ++ pat ++ post := by
  induction l with
  | nil =>
    simp only [Py.contains, List.isEmpty_iff]
    constructor
    · intro h; exact ⟨[], [], by simp [h]⟩
    · rintro ⟨pre, post, h⟩
      rcases pre <;> rcases pat <;> simp_all
  | cons c cs ih =>
    simp only [Py.contains, Bool.or_eq_true, ih]
    constructor
    · rintro (h | ⟨pre, post, rfl⟩)
      · rcases List.isPrefixOf_iff_prefix.mp h with ⟨t, ht⟩
        exact ⟨[], t, by simp [← ht]⟩
      · exact ⟨c :: pre, post, by simp⟩
    · rintro ⟨pre, post, h⟩
      rcases pre with _ | ⟨p, ps⟩
      · left
        exact List.isPrefixOf_iff_prefix.mpr ⟨post, by simpa using h.symm⟩
      · right
        refine ⟨ps, post, ?_⟩
        simp only [List.cons_append, List.cons.injEq] at h
        exact h.2

end PyLemmas

/-!
Regular expressions

Modelled from the spec: `job_finder.py` delegates location filtering to
Python's `re` module (`re.compile(location, re.IGNORECASE)` followed by
`regex.search(job.location)`), whose implementation is not part of this
repository.  The spec says: "compile it as a case-insensitive regular
expression; fails with a `InvalidPattern` error on malformed syntax; a
posting is excluded if its location field does not contain a match anywhere
in the string (partial match, not full match)".  We model a core fragment of
that contract: literals, escaped characters, `.`, alternation `|`,
quantifiers `*` `+` `?`, and grouping `( )`; compilation fails (`none`) on
malformed syntax such as an unbalanced parenthesis, a dangling quantifier or
a trailing escape; `IGNORECASE` is modelled by case-folding
both the pattern literals and the searched text; `search` tries a match
starting at every position.
-/

/-- Abstract syntax of the modelled regular-expression fragment. -/
inductive Regex where
  | emp : Regex
  | eps : Regex
  | char (c : Char) : Regex
  | dot : Regex
  | seq (a b : Regex) : Regex
  | alt (a b : Regex) : Regex
  | star (a : Regex) : Regex
deriving DecidableEq, Repr

namespace Regex

/-- Does the regex accept the empty string? -/
def nullable : Regex → Bool
  | emp => false
  | eps => true
  | char _ => false
  | dot => false
  | seq a b => nullable a && nullable b
  | alt a b => nullable a || nullable b
  | star _ => true

/-- Brzozowski derivative with respect to one character. -/
def deriv : Regex → Char → Regex
  | emp, _ => emp
  | eps, _ => emp
  | char c, x => if x = c then eps else emp
  | dot, _ => eps
  | seq a b, x =>
    if a.nullable then alt (seq (a.deriv x) b) (b.deriv x)
    else seq (a.deriv x) b
  | alt a b, x => alt (a.deriv x) (b.deriv x)
  | star a, x => seq (a.deriv x) (star a)

/-- Does the regex match the whole string? -/
def rmatch (r : Regex) : Str → Bool
  | [] => r.nullable
  | c :: cs => rmatch (r.deriv c) cs

/-- Does the regex match some prefix of the string (like an anchored
`re.match` that may stop early)? -/
def matchesFrom (r : Regex) : Str → Bool
  | [] => r.nullable
  | c :: cs => r.nullable || matchesFrom (r.deriv c) cs

/-- Python `re.search` truthiness: a match starting at any position. -/
def research (r : Regex) : Str → Bool
  | [] => r.nullable
  | c :: cs => r.matchesFrom (c :: cs) || research r cs

/-- One postfix quantifier applied to an atom. -/
def quantify (r : Regex) : Char → Regex
  | '*' => star r
  | '+' => seq r (star r)
  | '?' => alt r eps
  | _ => r

end Regex

namespace RegexParse

/-- Is this character a postfix quantifier? -/
def isQuant (c : Char) : Bool :=
  c = '*' || c = '+' || c = '?'

/-- Parser level: alternation, concatenation, or a single atom. -/
inductive ParseMode where
  | alt | cat | atom
deriving DecidableEq, Repr

/-- Recursive-descent parser for the modelled fragment, in one function so
that the recursion is structural on the fuel and reduces in the kernel.
Literal characters are case-folded, modelling `re.IGNORECASE`.  Each step
either consumes an input character or moves one level down
(`alt` to `cat` to `atom`), so `3 * length + 9` fuel (see `compile`) never
runs out on real input.  Grammar: `alt := cat ('|' alt)?`;
`cat := (atom quant?)* stopping at ')' or '|' or the end`;
`atom := '(' alt ')' | '.' | '\\' char | literal`.  A quantifier with
nothing to repeat, an unbalanced parenthesis and a trailing escape are
malformed (`none`). -/
def parseR : Nat → ParseMode → Str → Option (Regex × Str)
  | 0, _, _ => none
  | fuel + 1, .alt, s =>
    match parseR fuel .cat s with
    | none => none
    | some (r, rest) =>
      match rest with
      | '|' :: rest2 =>
        match parseR fuel .alt rest2 with
        | none => none
        | some (r2, rest3) => some (Regex.alt r r2, rest3)
      | _ => some (r, rest)
  | fuel + 1, .cat, s =>
    match s with
    | [] => some (Regex.eps, [])
    | ')' :: _ => some (Regex.eps, s)
    | '|' :: _ => some (Regex.eps, s)
    | _ =>
      match parseR fuel .atom s with
      | none => none
      | some (r, rest) =>
        match rest with
        | q :: rest2 =>
          if isQuant q then
            match parseR fuel .cat rest2 with
            | none => none
            | some (r2, rest3) => some (Regex.seq (r.quantify q) r2, rest3)
          else
            match parseR fuel .cat rest with
            | none => none
            | some (r2, rest3) => some (Regex.seq r r2, rest3)
        | [] => some (r, [])
  | fuel + 1, .atom, s =>
    match s with
    | [] => none
    | '(' :: rest =>
      match parseR fuel .alt rest with
      | none => none
      | some (r, rest2) =>
        match rest2 with
        | ')' :: rest3 => some (r, rest3)
        | _ => none
    | '.' :: rest => some (Regex.dot, rest)
    | '\\' :: c :: rest => some (Regex.char c.toLower, rest)
    | '\\' :: [] => none
    | c :: rest =>
      if isQuant c || c = ')' then none
      else some (Regex.char c.toLower, rest)

/-- Modelled from the spec: `re.compile(pattern, re.IGNORECASE)`.  Succeeds
with a case-folded regex on well-formed syntax, fails on malformed syntax. -/
def compile (pat : Str) : Option Regex :=
  match parseR (3 * pat.length + 9) .alt pat with
  | some (r, []) => some r
  | _ => none

/-- Modelled from the spec: truthiness of `compiled.search(text)` for a
case-insensitively compiled pattern — the text is case-folded to mirror
`re.IGNORECASE`, and a match is sought at every start position. -/
def searchCI (r : Regex) (text : Str) : Bool :=
  r.research (Py.lower text)

end RegexParse


/-!
`app/job_finder.py` — data model and `JobFinder.search` (value level)

`JobPosting` is the dataclass of `job_finder.py`.  Catalogs are loaded from
records with fields `{id, title, company, location, type, summary, skills,
tools, experience_level, description, responsibilities}` (spec §6), so the
`score` field of a stored posting is its dataclass default `0.0` (here `0`).
`JobPosting(**job.to_display_dict())` builds a field-by-field copy, which at
the value level used here is the posting itself; object identity is treated
separately in the heap model below.
-/

namespace StableSort

/-- One step of a stable descending insertion sort by the key `f`: the
inserted element goes before the first element whose key is `≤` its own, so
it follows every strictly larger key and precedes every equal key already
placed (which came later in the original list). -/
def insertDesc (f : α → Nat) (x : α) : List α → List α
  | [] => [x]
  | y :: ys => if f y ≤ f x then x :: y :: ys else y :: insertDesc f x ys

/-- Stable descending insertion sort by the key `f`. -/
def sortDesc (f : α → Nat) : List α → List α
  | [] => []
  | x :: xs => insertDesc f x (sortDesc f xs)

end StableSort

/-- The `JobPosting` dataclass of `job_finder.py`. -/
structure JobPosting where
  id : Str
  title : Str
  company : Str
  location : Str
  type : Str
  summary : Str
  skills : List Str
  tools : List Str
  experience_level : Str
  description : Str
  responsibilities : List Str
  score : Nat := 0
deriving DecidableEq, Repr

/-- Error taxonomy relevant to `search` (spec §7). -/
inductive SearchError where
  | invalidPattern : SearchError
deriving DecidableEq, Repr

namespace JobFinder

/-- `[kw.strip().lower() for kw in keywords if kw.strip()]`. -/
def normalizeKeywords (keywords : List Str) : List Str :=
  (keywords.filter (fun kw => Py.strip kw ≠ [])).map (fun kw => Py.lower (Py.strip kw))

/-- `" ".join([job.title, job.summary, job.description, " ".join(job.skills)]).lower()`. -/
def searchText (job : JobPosting) : Str :=
  Py.lower (Py.join [' '] [job.title, job.summary, job.description, Py.join [' '] job.skills])

/-- The scoring loop: `for kw in keywords: if kw in text: score += 1`. -/
def keywordScore (kws : List Str) (job : JobPosting) : Nat :=
  (kws.filter (fun kw => Py.contains kw (searchText job))).length

/-- `re.compile(location, re.IGNORECASE) if location else None`; a malformed
pattern raises `re.error` (the spec's `InvalidPattern`), which propagates. -/
def compileLocation (location : Option Str) : Except SearchError (Option Regex) :=
  if Py.truthy location then
    match RegexParse.compile (location.getD []) with
    | none => .error .invalidPattern
    | some r => .ok (some r)
  else .ok none

/-- `if location_regex and not location_regex.search(job.location): continue`. -/
def passesLocation (locRegex : Option Regex) (job : JobPosting) : Bool :=
  match locRegex with
  | none => true
  | some r => RegexParse.searchCI r job.location

/-- The body of the `for job in self.jobs` loop: filter by location, score,
and append an annotated copy when `score or (not keywords and location_regex)`. -/
def collectMatches (kws : List Str) (locRegex : Option Regex) :
    List JobPosting → List JobPosting
  | [] => []
  | job :: rest =>
    if passesLocation locRegex job then
      let score := keywordScore kws job
      if score ≠ 0 ∨ (kws = [] ∧ locRegex.isSome) then
        { job with score := score } :: collectMatches kws locRegex rest
      else collectMatches kws locRegex rest
    else collectMatches kws locRegex rest

/-- `matched.sort(key=lambda j: j.score, reverse=True)`.  Python's sort is
stable even with `reverse=True` (equal keys keep their original relative
order); a stable descending sort result is unique, so the stable insertion
sort `StableSort.sortDesc` computes the same list. -/
def sortByScoreDesc : List JobPosting → List JobPosting :=
  StableSort.sortDesc (fun j => j.score)

/-- `JobFinder.search` (value level).  `jobs` is the stored catalog in load
order; the early return `list(self.jobs)` yields the stored postings. -/
def search (keywords : List Str) (location : Option Str) (jobs : List JobPosting) :
    Except SearchError (List JobPosting) :=
  let kws := normalizeKeywords keywords
  if kws = [] ∧ ¬ Py.truthy location then .ok jobs
  else
    match compileLocation location with
    | .error e => .error e
    | .ok locRegex => .ok (sortByScoreDesc (collectMatches kws locRegex jobs))

end JobFinder

/-!
`app/resume_modifier.py`

The sections mapping is a Python `dict` built by insertion, modelled as an
association list where overwriting a key keeps its original position
(Python dicts preserve the insertion position of an updated key).  The
`_tokenize` result is a Python `set` used only for membership tests; it is
modelled as the list of its elements, with `∈`-tests.
-/

/-- Python `d[k] = v` on an insertion-ordered dict: overwrite in place, or
append a new key at the end. -/
def dictSet (k v : Str) : List (Str × Str) → List (Str × Str)
  | [] => [(k, v)]
  | (k', v') :: rest => if k' = k then (k, v) :: rest else (k', v') :: dictSet k v rest

/-- Python `d.get(k)`. -/
def dictGet? (k : Str) : List (Str × Str) → Option Str
  | [] => none
  | (k', v') :: rest => if k' = k then some v' else dictGet? k rest

/-- Python `d.get(k, default)` specialised to the empty-string default. -/
def dictGetD (k : Str) (d : List (Str × Str)) : Str :=
  (dictGet? k d).getD []

/-- Python `a or b` for an optional string `a` (`None` and `""` are falsy). -/
def pyOr (a : Option Str) (b : Str) : Str :=
  match a with
  | some v => if v ≠ [] then v else b
  | none => b

namespace ResumeModifier

/-- `normalize_token`: `token.strip().lower()`. -/
def normalize_token (token : Str) : Str :=
  Py.lower (Py.strip token)

/-- `_tokenize`: split every item on commas, normalize each part, and keep
the non-empty tokens (as a membership structure). -/
def tokenize (items : List Str) : List Str :=
  ((items.map (fun item => (Py.splitChar ',' item).map normalize_token)).flatten).filter
    (fun t => t ≠ [])

/-- `match_skills`: job skills whose normalized form is among the resume's
tokens, in job-skill order. -/
def match_skills (resume_skills job_skills : List Str) : List Str :=
  job_skills.filter (fun skill => (tokenize resume_skills).contains (normalize_token skill))

/-- `tailor_summary`. -/
def tailor_summary (base_summary : Str) (job : JobPosting) (matched_skills : List Str) : Str :=
  let skills_text :=
    if matched_skills ≠ [] then
      "Key strengths aligned with this role include ".data
        ++ Py.join ", ".data (matched_skills.take 5) ++ ".".data
    else
      "Eager to ramp up on the team's preferred tools and practices.".data
  "Target Role: ".data ++ job.title ++ " at ".data ++ job.company ++ ".\n".data
    ++ Py.strip base_summary ++ "\n".data
    ++ "Focus for this application: ".data ++ skills_text

/-- Is a line recognized as a section header (`stripped.isupper() and
len(stripped.split()) <= 4`)? -/
def isHeaderLine (line : Str) : Bool :=
  Py.isUpper (Py.strip line) && (Py.splitWs (Py.strip line)).length ≤ 4

/-- The loop of `_split_sections` over the remaining lines, carrying the
`sections` dict, the current header (`""` = none yet) and the line buffer;
the end-of-input commit mirrors the `if current_header / elif buffer`
epilogue. -/
def splitGo : List Str → List (Str × Str) → Str → List Str → List (Str × Str)
  | [], sections, current, buffer =>
    if current ≠ [] then dictSet current (Py.strip (Py.join "\n".data buffer)) sections
    else if buffer ≠ [] then
      dictSet "summary".data (Py.strip (Py.join "\n".data buffer)) sections
    else sections
  | line :: rest, sections, current, buffer =>
    if isHeaderLine line then
      let sections' :=
        if current ≠ [] then dictSet current (Py.strip (Py.join "\n".data buffer)) sections
        else sections
      let buffer' := if current ≠ [] then [] else buffer
      splitGo rest sections' (Py.lower (Py.strip line)) buffer'
    else
      splitGo rest sections current (buffer ++ [line])

/-- `_split_sections`. -/
def splitSections (resume_text : Str) : List (Str × Str) :=
  splitGo (Py.splitlines resume_text) [] [] []

/-- `_format_section`: upper-cased header on its own line, then the trimmed
body. -/
def format_section (header body : Str) : Str :=
  Py.upper header ++ "\n".data ++ Py.strip body

/-- The canonical section ordering of `tailor_resume`. -/
def orderedSections : List Str :=
  ["name".data, "contact".data, "tailored summary".data, "summary".data,
   "professional summary".data, "experience".data, "projects".data,
   "education".data, "skills".data, "role highlights".data]

/-- The first assembly loop (`for key in ordered_sections`): canonical keys
present with non-empty trimmed content, each rendered once.  Returns the
rendered blocks and the final `seen` set. -/
def assembleOrdered (sections : List (Str × Str)) :
    List Str → List Str → List Str × List Str
  | [], seen => ([], seen)
  | key :: keys, seen =>
    match dictGet? key sections with
    | some v =>
      if key ∉ seen ∧ Py.strip v ≠ [] then
        let (blocks, seen') := assembleOrdered sections keys (seen ++ [key])
        (format_section key v :: blocks, seen')
      else assembleOrdered sections keys seen
    | none => assembleOrdered sections keys seen

/-- The second assembly loop (`for key, value in sections.items()`):
remaining non-empty sections in first-encountered order. -/
def assembleRest : List (Str × Str) → List Str → List Str
  | [], _ => []
  | (k, v) :: rest, seen =>
    if k ∉ seen ∧ Py.strip v ≠ [] then
      format_section k v :: assembleRest rest (seen ++ [k])
    else assembleRest rest seen

/-- The skill-line extraction inside `tailor_resume`:
`[line.strip("- ") for line in skills_section.splitlines() if line.strip()]`
(the comprehension filters on `line.strip()` and maps `line.strip("- ")`). -/
def extract_skill_lines (skills_section : Str) : List Str :=
  ((Py.splitlines skills_section).filter (fun line => Py.strip line ≠ [])).map
    (fun line => Py.stripChars "- ".data line)

/-- The matched skills `tailor_resume` computes for a resume and posting. -/
def tailorMatchedSkills (resume_text : Str) (job : JobPosting) : List Str :=
  match_skills
    (extract_skill_lines (dictGetD "skills".data (splitSections resume_text)))
    job.skills

/-- The synthesized "tailored summary" body. -/
def tailoredSummaryOf (resume_text : Str) (job : JobPosting) : Str :=
  let sections := splitSections resume_text
  let summary_text :=
    pyOr (dictGet? "summary".data sections)
      (pyOr (dictGet? "professional summary".data sections) [])
  let base :=
    if summary_text ≠ [] then summary_text
    else "Experienced professional ready to contribute.".data
  tailor_summary base job (tailorMatchedSkills resume_text job)

/-- The synthesized "role highlights" body. -/
def roleHighlightsOf (resume_text : Str) (job : JobPosting) : Str :=
  let matched_skills := tailorMatchedSkills resume_text job
  Py.join "\n".data
    ("Highlighted Skills for this role:".data ::
      (if matched_skills ≠ [] then matched_skills.map (fun s => "- ".data ++ s)
       else ["- Rapid learner with a track record of mastering new domains".data]))

/-- The sections dict after `tailor_resume` inserts (overwriting) the two
synthesized sections. -/
def finalSections (resume_text : Str) (job : JobPosting) : List (Str × Str) :=
  dictSet "role highlights".data (roleHighlightsOf resume_text job)
    (dictSet "tailored summary".data (tailoredSummaryOf resume_text job)
      (splitSections resume_text))

/-- The `assembled` list of rendered section blocks inside `tailor_resume`:
the canonical pass, then the remaining-sections pass. -/
def assembledBlocks (resume_text : Str) (job : JobPosting) : List Str :=
  let sections2 := finalSections resume_text job
  let (blocks, seen) := assembleOrdered sections2 orderedSections []
  blocks ++ assembleRest sections2 seen

/-- `tailor_resume`: `"\n\n".join(assembled).strip() + "\n"`. -/
def tailor_resume (resume_text : Str) (job : JobPosting) : Str :=
  Py.strip (Py.join "\n\n".data (assembledBlocks resume_text job)) ++ "\n".data

end ResumeModifier

/-!
`app/job_finder.py` — heap model for object identity

`JobFinder.search` (value level, above) ignores Python object identity; the
spec's claim that "returned postings are independent copies" and that
mutating a returned posting cannot affect the stored catalog is about
identity, so we also give a small heap model.  The heap holds the mutable
Python objects: `JobPosting` dataclass instances and the `list` objects
their three sequence attributes point to; immutable `str` values are inlined.
The stored catalog (`self._jobs`) is a list of posting addresses in load
order.  `searchH` is `JobFinder.search` over this heap: the early return
`list(self.jobs)` builds a fresh Python list holding the *same* posting
references, while the match branch allocates fresh list objects and a fresh
posting per result (`JobPosting(**job.to_display_dict())`, whose
`to_display_dict` copies the three sequences with `list(...)`).  Mutation of
a posting's `score` attribute and of a list object's contents are modelled
by `writeScore` and `writeListObj`.
-/

/-- A `JobPosting` object whose three sequence attributes are addresses of
`list` objects in the heap. -/
structure HPosting where
  id : Str
  title : Str
  company : Str
  location : Str
  type : Str
  summary : Str
  skills : Nat
  tools : Nat
  experience_level : Str
  description : Str
  responsibilities : Nat
  score : Nat := 0
deriving DecidableEq, Repr

/-- The mutable objects: list objects and posting objects, addressed by
their index. -/
structure Heap where
  lists : List (List Str)
  postings : List HPosting
deriving DecidableEq, Repr

/-- Replace the element at one index, if it exists. -/
def listModify (f : α → α) : Nat → List α → List α
  | _, [] => []
  | 0, x :: xs => f x :: xs
  | n + 1, x :: xs => x :: listModify f n xs

namespace Heap

/-- Read a list object (absent addresses read as `[]`; well-formed states
never use them). -/
def derefList (h : Heap) (a : Nat) : List Str :=
  (h.lists.get? a).getD []

/-- The value a posting object denotes, with its list attributes read from
the heap. -/
def valueOf (h : Heap) (p : HPosting) : JobPosting :=
  { id := p.id, title := p.title, company := p.company, location := p.location,
    type := p.type, summary := p.summary, skills := h.derefList p.skills,
    tools := h.derefList p.tools, experience_level := p.experience_level,
    description := p.description, responsibilities := h.derefList p.responsibilities,
    score := p.score }

/-- Allocate a fresh list object. -/
def allocList (h : Heap) (l : List Str) : Heap × Nat :=
  ({ h with lists := h.lists ++ [l] }, h.lists.length)

/-- Allocate a fresh posting object. -/
def allocPosting (h : Heap) (p : HPosting) : Heap × Nat :=
  ({ h with postings := h.postings ++ [p] }, h.postings.length)

/-- `JobPosting(**job.to_display_dict())` followed by `job_copy.score =
float(score)`: fresh copies of the three list attributes, then a fresh
posting pointing at them. -/
def copyPosting (h : Heap) (p : HPosting) (score : Nat) : Heap × Nat :=
  let (h1, aSkills) := h.allocList (h.derefList p.skills)
  let (h2, aTools) := h1.allocList (h.derefList p.tools)
  let (h3, aResp) := h2.allocList (h.derefList p.responsibilities)
  h3.allocPosting { p with skills := aSkills, tools := aTools,
                           responsibilities := aResp, score := score }

/-- Mutate the `score` attribute of the posting object at an address. -/
def writeScore (h : Heap) (a : Nat) (s : Nat) : Heap :=
  { h with postings := listModify (fun p => { p with score := s }) a h.postings }

/-- Mutate the contents of the list object at an address (covers element
assignment, `append`, etc., which all act on the object in place). -/
def writeListObj (h : Heap) (a : Nat) (l : List Str) : Heap :=
  { h with lists := listModify (fun _ => l) a h.lists }

/-- The `score` of the posting object at an address. -/
def scoreAt (h : Heap) (a : Nat) : Nat :=
  ((h.postings.get? a).map HPosting.score).getD 0

end Heap

namespace JobFinder

/-- The `for job in self.jobs` loop over posting addresses: each match
allocates an annotated copy and contributes the copy's address. -/
def collectMatchesH (kws : List Str) (locRegex : Option Regex) :
    List Nat → Heap → Heap × List Nat
  | [], h => (h, [])
  | a :: rest, h =>
    match h.postings.get? a with
    | none => collectMatchesH kws locRegex rest h
    | some p =>
      let v := h.valueOf p
      if passesLocation locRegex v then
        let score := keywordScore kws v
        if score ≠ 0 ∨ (kws = [] ∧ locRegex.isSome) then
          let (h', a') := h.copyPosting p score
          let (h'', rest') := collectMatchesH kws locRegex rest h'
          (h'', a' :: rest')
        else collectMatchesH kws locRegex rest h
      else collectMatchesH kws locRegex rest h

/-- `JobFinder.search` over the heap model.  `jobAddrs` is the stored
catalog `self._jobs` (posting addresses in load order); the result is the
possibly extended heap and the addresses of the returned postings. -/
def searchH (keywords : List Str) (location : Option Str) (h : Heap)
    (jobAddrs : List Nat) : Except SearchError (Heap × List Nat) :=
  let kws := normalizeKeywords keywords
  if kws = [] ∧ ¬ Py.truthy location then .ok (h, jobAddrs)
  else
    match compileLocation location with
    | .error e => .error e
    | .ok locRegex =>
      let (h', matched) := collectMatchesH kws locRegex jobAddrs h
      .ok (h', StableSort.sortDesc (h'.scoreAt) matched)

end JobFinder

/-!
Lemmas about the stable sort
-/

namespace StableSort

theorem insertDesc_perm (f : α → Nat) (x : α) (l : List α) :
    (insertDesc f x l).Perm (x :: l) := by
  induction l with
  | nil => exact List.Perm.refl _
  | cons y ys ih =>
    by_cases h : f y ≤ f x
    · simp [insertDesc, h]
    · simp only [insertDesc, if_neg h]
      exact (ih.cons y).trans (List.Perm.swap x y ys)

theorem sortDesc_perm (f : α → Nat) (l : List α) : (sortDesc f l).Perm l := by
  induction l with
  | nil => exact List.Perm.refl _
  | cons x xs ih => exact (insertDesc_perm f x (sortDesc f xs)).trans (ih.cons x)

theorem mem_sortDesc {f : α → Nat} {l : List α} {a : α} :
    a ∈ sortDesc f l ↔ a ∈ l :=
  (sortDesc_perm f l).mem_iff

theorem insertDesc_pairwise (f : α → Nat) (x : α) (l : List α)
    (h : l.Pairwise (fun a b => f b ≤ f a)) :
    (insertDesc f x l).Pairwise (fun a b => f b ≤ f a) := by
  induction l with
  | nil => simp [insertDesc]
  | cons y ys ih =>
    rcases List.pairwise_cons.mp h with ⟨h1, h2⟩
    by_cases hc : f y ≤ f x
    · simp only [insertDesc, if_pos hc]
      refine List.pairwise_cons.mpr ⟨?_, h⟩
      intro b hb
      rcases List.mem_cons.mp hb with rfl | hb
      · exact hc
      · exact le_trans (h1 b hb) hc
    · simp only [insertDesc, if_neg hc]
      refine List.pairwise_cons.mpr ⟨?_, ih h2⟩
      intro b hb
      rcases List.mem_cons.mp ((insertDesc_perm f x ys).mem_iff.mp hb) with rfl | hmem
      · exact le_of_lt (Nat.lt_of_not_le hc)
      · exact h1 b hmem

theorem sortDesc_pairwise (f : α → Nat) (l : List α) :
    (sortDesc f l).Pairwise (fun a b => f b ≤ f a) := by
  induction l with
  | nil => simp [sortDesc]
  | cons x xs ih => exact insertDesc_pairwise f x _ ih

theorem insertDesc_filter (f : α → Nat) (x : α) (l : List α) (n : Nat) :
    (insertDesc f x l).filter (fun a => f a == n) =
      (x :: l).filter (fun a => f a == n) := by
  induction l with
  | nil => rfl
  | cons y ys ih =>
    by_cases hc : f y ≤ f x
    · simp [insertDesc, hc]
    · have hxy : f x < f y := Nat.lt_of_not_le hc
      simp only [insertDesc, if_neg hc]
      by_cases hy : f y = n
      · have hx : ¬ f x = n := by omega
        simp only [List.filter_cons]
        simp only [beq_iff_eq, hy, hx, if_pos, if_neg, ih]
        simp [List.filter_cons, hx, hy]
      · simp only [List.filter_cons]
        simp only [beq_iff_eq, hy, ite_false, ih]
        simp [List.filter_cons, hy]

theorem sortDesc_filter (f : α → Nat) (l : List α) (n : Nat) :
    (sortDesc f l).filter (fun a => f a == n) = l.filter (fun a => f a == n) := by
  induction l with
  | nil => rfl
  | cons x xs ih =>
    rw [sortDesc, insertDesc_filter]
    simp only [List.filter_cons, ih]

end StableSort

/-!
Lemmas about `JobFinder.search`
-/

namespace JobFinder

/-- What the match loop contributes for one stored posting: the annotated
copy, when the posting passes the location filter and the inclusion
condition `score or (not keywords and location_regex)` holds. -/
def matchEntry (kws : List Str) (locRegex : Option Regex) (job : JobPosting) :
    Option JobPosting :=
  if passesLocation locRegex job = true ∧
      (keywordScore kws job ≠ 0 ∨ (kws = [] ∧ locRegex.isSome)) then
    some { job with score := keywordScore kws job }
  else none

theorem collectMatches_eq_filterMap (kws : List Str) (lr : Option Regex)
    (jobs : List JobPosting) :
    collectMatches kws lr jobs = jobs.filterMap (matchEntry kws lr) := by
  induction jobs with
  | nil => rfl
  | cons job rest ih =>
    by_cases hp : passesLocation lr job = true
    · by_cases hs : keywordScore kws job ≠ 0 ∨ (kws = [] ∧ lr.isSome)
      · simp [collectMatches, matchEntry, hp, hs, ih, List.filterMap_cons]
      · simp [collectMatches, matchEntry, hp, hs, ih, List.filterMap_cons]
    · simp [collectMatches, matchEntry, hp, ih, List.filterMap_cons,
        Bool.not_eq_true _ ▸ hp]

end JobFinder

namespace JobFinder

/-- `search`, rewritten branch by branch. -/
theorem search_eq (keywords : List Str) (location : Option Str) (jobs : List JobPosting) :
    search keywords location jobs =
      if normalizeKeywords keywords = [] ∧ ¬ Py.truthy location then .ok jobs
      else
        match compileLocation location with
        | .error e => .error e
        | .ok lr =>
          .ok (sortByScoreDesc (jobs.filterMap (matchEntry (normalizeKeywords keywords) lr))) := by
  unfold search
  by_cases h : normalizeKeywords keywords = [] ∧ ¬ Py.truthy location
  · simp [h]
  · simp only [if_neg h]
    cases hcl : compileLocation location with
    | error e => rfl
    | ok lr => simp [collectMatches_eq_filterMap]

/-- Setting a posting's score to its own score is the identity. -/
theorem setScore_self (j : JobPosting) (s : Nat) (h : j.score = s) :
    { j with score := s } = j := by
  cases j
  simp only at h
  simp [h]

theorem filter_score_sublist_map (jobs : List JobPosting) (s : Nat)
    (h : ∀ p ∈ jobs, p.score = 0) :
    (jobs.filter (fun p => p.score == s)).Sublist
      (jobs.map (fun j => { j with score := s })) := by
  induction jobs with
  | nil => simp
  | cons j rest ih =>
    have hj0 : j.score = 0 := h j (List.mem_cons_self j rest)
    have ihr := ih (fun p hp => h p (List.mem_cons_of_mem j hp))
    by_cases hj : j.score = s
    · simp only [List.filter_cons, List.map_cons, beq_iff_eq, hj, if_pos, ite_true]
      rw [setScore_self j s hj]
      exact (List.Sublist.cons₂ j ihr)
    · simp only [List.filter_cons, List.map_cons, beq_iff_eq, hj, ite_false]
      exact ihr.cons _

theorem filterMap_matchEntry_filter_sublist (kws : List Str) (lr : Option Regex)
    (jobs : List JobPosting) (s : Nat) :
    ((jobs.filterMap (matchEntry kws lr)).filter (fun p => p.score == s)).Sublist
      (jobs.map (fun j => { j with score := s })) := by
  induction jobs with
  | nil => simp
  | cons j rest ih =>
    rw [List.filterMap_cons, List.map_cons]
    cases hm : matchEntry kws lr j with
    | none => exact ih.cons _
    | some q =>
      have hq : q = { j with score := keywordScore kws j } := by
        unfold matchEntry at hm
        split at hm
        · exact (Option.some.injEq _ _ ▸ hm).symm
        · exact absurd hm (by simp)
      by_cases hs : q.score = s
      · have hks : keywordScore kws j = s := by rw [hq] at hs; simpa using hs
        have hqs : q = { j with score := s } := by rw [hq, hks]
        simp only [List.filter_cons, beq_iff_eq, hs, if_pos, ite_true]
        rw [hqs]
        exact List.Sublist.cons₂ _ ih
      · simp only [List.filter_cons, beq_iff_eq, hs, ite_false]
        exact ih.cons _

end JobFinder

/-- A concrete posting used to instantiate witnesses (score is the dataclass
default `0`). -/
def sampleJob : JobPosting :=
  { id := "DS-101".data, title := "Data Scientist".data, company := "Acme".data,
    location := "Remote".data, type := "Full-time".data, summary := "ML role".data,
    skills := ["Python".data, "SQL".data], tools := ["Git".data],
    experience_level := "Senior".data, description := "Build models".data,
    responsibilities := ["Ship models".data] }

/-- A second concrete posting, in New York. -/
def sampleJobNY : JobPosting :=
  { id := "PM-301".data, title := "Product Manager".data, company := "Acme".data,
    location := "New York".data, type := "Full-time".data, summary := "PM role".data,
    skills := ["Roadmapping".data], tools := [],
    experience_level := "Mid".data, description := "Plan".data,
    responsibilities := [] }

/-- C8: a search whose keywords all normalize to empty and which has no
location pattern returns every stored posting in load order; for a catalog
loaded from posting records (which carry no score field) every stored score
is the dataclass default `0`, so each returned posting has score zero. -/
theorem c8_empty_query_returns_catalog (keywords : List Str) (jobs : List JobPosting)
    (hk : JobFinder.normalizeKeywords keywords = [])
    (hcat : ∀ p ∈ jobs, p.score = 0) :
    JobFinder.search keywords none jobs = .ok jobs ∧ ∀ p ∈ jobs, p.score = 0 := by
  refine ⟨?_, hcat⟩
  rw [JobFinder.search_eq]
  simp [hk, Py.truthy]

/-- C8 witness: the empty-query search on a concrete two-posting catalog,
with keywords that normalize away. -/
theorem c8_empty_query_returns_catalog_witness :
    JobFinder.search ["  ".data] none [sampleJob, sampleJobNY] =
        .ok [sampleJob, sampleJobNY] ∧
      ∀ p ∈ [sampleJob, sampleJobNY], p.score = 0 :=
  c8_empty_query_returns_catalog ["  ".data] [sampleJob, sampleJobNY]
    (by decide) (by decide)

/-- C2: every successful search result is sorted by score in descending
order, and the returned postings carrying any fixed score `s` form, in
order, a sublist of the catalog in load order (each posting annotated with
`s`): ties keep the original load order.  `search` is a function of its
arguments, so the ordering is deterministic.  The stored scores are the
load-time default `0` (posting records carry no score field). -/
theorem c2_sorted_stable (keywords : List Str) (location : Option Str)
    (jobs res : List JobPosting)
    (hcat : ∀ p ∈ jobs, p.score = 0)
    (hres : JobFinder.search keywords location jobs = .ok res) :
    res.Pairwise (fun a b => b.score ≤ a.score) ∧
    ∀ s : Nat, (res.filter (fun p => p.score == s)).Sublist
      (jobs.map (fun j => { j with score := s })) := by
  rw [JobFinder.search_eq] at hres
  by_cases h : JobFinder.normalizeKeywords keywords = [] ∧ ¬ Py.truthy location
  · rw [if_pos h] at hres
    have hjr : jobs = res := by simpa using hres
    subst hjr
    constructor
    · exact List.pairwise_of_forall_mem_list
        (fun a ha b hb => by rw [hcat a ha, hcat b hb])
    · intro s
      exact JobFinder.filter_score_sublist_map jobs s hcat
  · rw [if_neg h] at hres
    cases hcl : JobFinder.compileLocation location with
    | error e => rw [hcl] at hres; exact absurd hres (by simp)
    | ok lr =>
      rw [hcl] at hres
      have hr : res = JobFinder.sortByScoreDesc
          (jobs.filterMap (JobFinder.matchEntry (JobFinder.normalizeKeywords keywords) lr)) := by
        simpa using hres.symm
      subst hr
      constructor
      · exact StableSort.sortDesc_pairwise (fun j : JobPosting => j.score) _
      · intro s
        unfold JobFinder.sortByScoreDesc
        rw [StableSort.sortDesc_filter]
        exact JobFinder.filterMap_matchEntry_filter_sublist _ lr jobs s

/-- C2 witness: a keyword query on a concrete two-posting catalog in which
both postings score 1: the result is sorted and keeps load order on the
tie. -/
theorem c2_sorted_stable_witness :
    (JobFinder.search ["role".data] none [sampleJob, sampleJobNY] =
        .ok [{ sampleJob with score := 1 }, { sampleJobNY with score := 1 }]) ∧
    ([{ sampleJob with score := 1 }, { sampleJobNY with score := 1 }].Pairwise
        (fun a b => b.score ≤ a.score) ∧
      ∀ s : Nat,
        ([{ sampleJob with score := 1 }, { sampleJobNY with score := 1 }].filter
            (fun p => p.score == s)).Sublist
          ([sampleJob, sampleJobNY].map (fun j => { j with score := s }))) :=
  ⟨by rfl,
   c2_sorted_stable ["role".data] none [sampleJob, sampleJobNY]
     [{ sampleJob with score := 1 }, { sampleJobNY with score := 1 }]
     (by decide) (by rfl)⟩

/-- A concrete posting whose searchable text contains "java". -/
def javaJob : JobPosting :=
  { id := "J-1".data, title := "java dev".data, company := "Co".data,
    location := "Remote".data, type := "Full-time".data, summary := "backend".data,
    skills := [], tools := [], experience_level := "Junior".data,
    description := "services".data, responsibilities := [] }

/-- C1 counterexample: two keywords that normalize to the same string are
both counted (`search(["java", "JAVA"], None)` scores 2 on a posting whose
text contains "java"), while the number of *distinct* normalized keywords
occurring in the text is 1 — the score is a count over the normalized
keyword list with multiplicity, not over distinct keywords. -/
theorem c1_distinct_counterexample :
    JobFinder.search ["java".data, "JAVA".data] none [javaJob] =
        .ok [{ javaJob with score := 2 }] ∧
    ((JobFinder.normalizeKeywords ["java".data, "JAVA".data]).dedup.filter
        (fun kw => Py.contains kw (JobFinder.searchText javaJob))).length = 1 ∧
    (2 : Nat) ≠ 1 :=
  ⟨by rfl, by decide, by decide⟩

namespace JobFinder

theorem matchEntry_some {kws : List Str} {lr : Option Regex} {job p : JobPosting}
    (hm : matchEntry kws lr job = some p) :
    p = { job with score := keywordScore kws job } ∧
    passesLocation lr job = true ∧
    (keywordScore kws job ≠ 0 ∨ (kws = [] ∧ lr.isSome = true)) := by
  unfold matchEntry at hm
  split at hm
  · rename_i hcond
    exact ⟨(Option.some.injEq _ _ ▸ hm).symm, hcond.1, hcond.2⟩
  · exact absurd hm (by simp)

end JobFinder

/-- C1 (amended): for a search whose normalized keyword list is non-empty,
the score attached to each returned posting is the number of entries of the
normalized keyword list — counted with multiplicity, not the number of
distinct keywords — that occur as substrings of the lower-cased
space-joined concatenation of title, summary, description and skills (each
list entry contributing at most 1 regardless of how often it occurs in the
text); and a catalog posting that passes the location filter is included in
the results (annotated with its score) if and only if its score is
positive. -/
theorem c1_score_and_inclusion (keywords : List Str) (location : Option Str)
    (jobs res : List JobPosting)
    (hk : JobFinder.normalizeKeywords keywords ≠ [])
    (hres : JobFinder.search keywords location jobs = .ok res) :
    (∀ p ∈ res, p.score =
      ((JobFinder.normalizeKeywords keywords).filter
        (fun kw => Py.contains kw (JobFinder.searchText p))).length) ∧
    (∀ lr, JobFinder.compileLocation location = .ok lr →
      ∀ job ∈ jobs, JobFinder.passesLocation lr job = true →
        ({ job with
            score := JobFinder.keywordScore (JobFinder.normalizeKeywords keywords) job } ∈ res ↔
          0 < JobFinder.keywordScore (JobFinder.normalizeKeywords keywords) job)) := by
  rw [JobFinder.search_eq] at hres
  rw [if_neg (fun hc => hk hc.1)] at hres
  cases hcl : JobFinder.compileLocation location with
  | error e => rw [hcl] at hres; exact absurd hres (by simp)
  | ok lr =>
    rw [hcl] at hres
    have hr : res = JobFinder.sortByScoreDesc
        (jobs.filterMap (JobFinder.matchEntry (JobFinder.normalizeKeywords keywords) lr)) := by
      simpa using hres.symm
    subst hr
    unfold JobFinder.sortByScoreDesc
    constructor
    · intro p hp
      rcases List.mem_filterMap.mp (StableSort.mem_sortDesc.mp hp) with ⟨job, _, hm⟩
      rcases JobFinder.matchEntry_some hm with ⟨hp', _, _⟩
      rw [hp']
      rfl
    · intro lr' hlr' job hjob hpass
      have hlr : lr' = lr := by
        simpa using hlr'.symm
      subst hlr
      constructor
      · intro hmem
        rcases List.mem_filterMap.mp (StableSort.mem_sortDesc.mp hmem) with ⟨j', _, hm⟩
        rcases JobFinder.matchEntry_some hm with ⟨hp', _, hcond⟩
        have hscore : JobFinder.keywordScore (JobFinder.normalizeKeywords keywords) job =
            JobFinder.keywordScore (JobFinder.normalizeKeywords keywords) j' := by
          have := congrArg JobPosting.score hp'
          simpa using this
        rcases hcond with hne | ⟨hkz, _⟩
        · rw [hscore]
          exact Nat.pos_of_ne_zero hne
        · exact absurd hkz hk
      · intro hpos
        apply StableSort.mem_sortDesc.mpr
        apply List.mem_filterMap.mpr
        refine ⟨job, hjob, ?_⟩
        unfold JobFinder.matchEntry
        rw [if_pos ⟨hpass, Or.inl (Nat.pos_iff_ne_zero.mp hpos)⟩]

/-- C1 witness: the amended theorem at `search(["java"], None)` on the
concrete one-posting catalog. -/
theorem c1_score_and_inclusion_witness :
    (∀ p ∈ [{ javaJob with score := 1 }], p.score =
      ((JobFinder.normalizeKeywords ["java".data]).filter
        (fun kw => Py.contains kw (JobFinder.searchText p))).length) ∧
    (∀ lr, JobFinder.compileLocation none = .ok lr →
      ∀ job ∈ [javaJob], JobFinder.passesLocation lr job = true →
        ({ job with
            score := JobFinder.keywordScore (JobFinder.normalizeKeywords ["java".data]) job } ∈
            [{ javaJob with score := 1 }] ↔
          0 < JobFinder.keywordScore (JobFinder.normalizeKeywords ["java".data]) job)) :=
  c1_score_and_inclusion ["java".data] none [javaJob] [{ javaJob with score := 1 }]
    (by decide) (by rfl)

/-!
Lemmas about the regex model
-/

theorem Regex.matchesFrom_iff (r : Regex) (l : Str) :
    r.matchesFrom l = true ↔ ∃ pre post, l = pre ++ post ∧ r.rmatch pre = true := by
  induction l generalizing r with
  | nil =>
    simp only [matchesFrom]
    constructor
    · intro h
      exact ⟨[], [], rfl, h⟩
    · rintro ⟨pre, post, h, hm⟩
      have hp : pre = [] := by cases pre <;> simp_all
      subst hp
      exact hm
  | cons c cs ih =>
    simp only [matchesFrom, Bool.or_eq_true]
    constructor
    · rintro (h | h)
      · exact ⟨[], c :: cs, rfl, h⟩
      · rcases (ih _).mp h with ⟨pre, post, heq, hm⟩
        exact ⟨c :: pre, post, by simp [heq], hm⟩
    · rintro ⟨pre, post, heq, hm⟩
      cases pre with
      | nil =>
        left
        exact hm
      | cons p ps =>
        right
        simp only [List.cons_append, List.cons.injEq] at heq
        rcases heq with ⟨rfl, heq2⟩
        exact (ih _).mpr ⟨ps, post, heq2, hm⟩

theorem Regex.research_iff (r : Regex) (l : Str) :
    r.research l = true ↔ ∃ pre mid post, l = pre ++ mid ++ post ∧ r.rmatch mid = true := by
  induction l with
  | nil =>
    simp only [research]
    constructor
    · intro h
      exact ⟨[], [], [], rfl, h⟩
    · rintro ⟨pre, mid, post, heq, hm⟩
      have h1 : pre ++ mid ++ post = [] := heq.symm
      rcases List.append_eq_nil.mp h1 with ⟨h2, _⟩
      rcases List.append_eq_nil.mp h2 with ⟨rfl, rfl⟩
      exact hm
  | cons c cs ih =>
    simp only [research, Bool.or_eq_true, Regex.matchesFrom_iff, ih]
    constructor
    · rintro (⟨mid, post, heq, hm⟩ | ⟨pre, mid, post, heq, hm⟩)
      · exact ⟨[], mid, post, by simpa using heq, hm⟩
      · exact ⟨c :: pre, mid, post, by simp [heq], hm⟩
    · rintro ⟨pre, mid, post, heq, hm⟩
      cases pre with
      | nil =>
        left
        exact ⟨mid, post, by simpa using heq, hm⟩
      | cons p ps =>
        right
        simp only [List.cons_append, List.cons.injEq] at heq
        rcases heq with ⟨rfl, heq2⟩
        exact ⟨ps, mid, post, heq2, hm⟩

/-- C9: a malformed location pattern makes `search` fail with the
`InvalidPattern`-kind error in both the value model and the heap model —
the error is the whole result (no partial result list, no heap change is
returned, and the catalog argument is untouched); for a well-formed
pattern, a posting passes the location filter exactly when some substring
of its case-folded location field fully matches the compiled
(case-folded) pattern — a partial, case-insensitive match, so the filter
decision depends only on the case-folded location text. -/
theorem c9_invalid_pattern_and_partial_match (keywords : List Str) (pat : Str)
    (jobs : List JobPosting) (h : Heap) (jobAddrs : List Nat) :
    (RegexParse.compile pat = none →
      JobFinder.search keywords (some pat) jobs = .error SearchError.invalidPattern ∧
      JobFinder.searchH keywords (some pat) h jobAddrs = .error SearchError.invalidPattern) ∧
    (∀ r, RegexParse.compile pat = some r →
      (∀ job : JobPosting, JobFinder.passesLocation (some r) job = true ↔
        ∃ pre mid post, Py.lower job.location = pre ++ mid ++ post ∧ r.rmatch mid = true) ∧
      (∀ j1 j2 : JobPosting, Py.lower j1.location = Py.lower j2.location →
        JobFinder.passesLocation (some r) j1 = JobFinder.passesLocation (some r) j2)) := by
  constructor
  · intro hbad
    have hpat : pat ≠ [] := by
      intro h0
      rw [h0] at hbad
      exact absurd hbad (by decide)
    have htr : Py.truthy (some pat) = true := by simpa [Py.truthy] using hpat
    have hcl : JobFinder.compileLocation (some pat) = .error .invalidPattern := by
      unfold JobFinder.compileLocation
      rw [if_pos htr]
      simp [hbad]
    constructor
    · rw [JobFinder.search_eq, if_neg (by simp [htr]), hcl]
    · unfold JobFinder.searchH
      rw [if_neg (by simp [htr]), hcl]
  · intro r _hr
    constructor
    · intro job
      exact Regex.research_iff r (Py.lower job.location)
    · intro j1 j2 hloc
      unfold JobFinder.passesLocation RegexParse.searchCI
      rw [hloc]

/-- C9 witness: the unbalanced pattern "(" errors out on a concrete catalog
and heap; the well-formed pattern "york" matches "New York"
case-insensitively and partially. -/
theorem c9_invalid_pattern_and_partial_match_witness :
    (JobFinder.search [] (some "(".data) [sampleJobNY] = .error SearchError.invalidPattern ∧
      JobFinder.searchH [] (some "(".data) { lists := [], postings := [] } [] =
        .error SearchError.invalidPattern) ∧
    (JobFinder.passesLocation (some ((RegexParse.compile "york".data).getD Regex.emp))
        sampleJobNY = true ↔
      ∃ pre mid post, Py.lower sampleJobNY.location = pre ++ mid ++ post ∧
        ((RegexParse.compile "york".data).getD Regex.emp).rmatch mid = true) :=
  ⟨(c9_invalid_pattern_and_partial_match [] "(".data [sampleJobNY]
      { lists := [], postings := [] } []).1 (by decide),
   ((c9_invalid_pattern_and_partial_match [] "york".data [sampleJobNY]
      { lists := [], postings := [] } []).2
      ((RegexParse.compile "york".data).getD Regex.emp) (by decide)).1 sampleJobNY⟩

/-!
Lemmas about the heap model
-/

theorem listModify_get?_ne (f : α → α) (i j : Nat) (l : List α) (h : i ≠ j) :
    (listModify f i l).get? j = l.get? j := by
  induction l generalizing i j with
  | nil => cases i <;> rfl
  | cons x xs ih =>
    cases i with
    | zero =>
      cases j with
      | zero => exact absurd rfl h
      | succ j => rfl
    | succ i =>
      cases j with
      | zero => rfl
      | succ j => exact ih i j (fun he => h (by rw [he]))

/-- The fresh posting object that `copyPosting` allocates: it points at the
three freshly allocated list objects and carries the given score. -/
def Heap.copiedPosting (h : Heap) (p : HPosting) (s : Nat) : HPosting :=
  { p with
      skills := h.lists.length
      tools := h.lists.length + 1
      responsibilities := h.lists.length + 2
      score := s }

/-- What `copyPosting` allocates: three fresh list objects holding copies of
the source's sequences, and one fresh posting pointing at them with the
given score. -/
theorem Heap.copyPosting_eq (h : Heap) (p : HPosting) (s : Nat) :
    h.copyPosting p s =
      ({ lists := h.lists ++ [h.derefList p.skills, h.derefList p.tools,
           h.derefList p.responsibilities]
         postings := h.postings ++ [h.copiedPosting p s] },
       h.postings.length) := by
  simp [Heap.copyPosting, Heap.allocList, Heap.allocPosting, Heap.derefList,
    Heap.copiedPosting]

namespace JobFinder

theorem collectMatchesH_spec (kws : List Str) (lr : Option Regex) :
    ∀ (addrs : List Nat) (h h' : Heap) (res : List Nat),
      collectMatchesH kws lr addrs h = (h', res) →
      (∃ nl, h'.lists = h.lists ++ nl) ∧
      (∃ np, h'.postings = h.postings ++ np) ∧
      (∀ a ∈ res, h.postings.length ≤ a ∧
        ∃ p, h'.postings.get? a = some p ∧
          h.lists.length ≤ p.skills ∧ h.lists.length ≤ p.tools ∧
          h.lists.length ≤ p.responsibilities) := by
  intro addrs
  induction addrs with
  | nil =>
    intro h h' res hc
    simp only [collectMatchesH, Prod.mk.injEq] at hc
    rcases hc with ⟨rfl, rfl⟩
    exact ⟨⟨[], by simp⟩, ⟨[], by simp⟩, by simp⟩
  | cons a rest ih =>
    intro h h' res hc
    unfold collectMatchesH at hc
    cases hget : h.postings.get? a with
    | none =>
      simp only [hget] at hc
      exact ih h h' res hc
    | some p =>
      simp only [hget] at hc
      by_cases hp : passesLocation lr (h.valueOf p) = true
      · rw [if_pos hp] at hc
        by_cases hs : keywordScore kws (h.valueOf p) ≠ 0 ∨ (kws = [] ∧ lr.isSome)
        · rw [if_pos hs] at hc
          rw [Heap.copyPosting_eq] at hc
          rcases hrec : collectMatchesH kws lr rest
              { lists := h.lists ++ [h.derefList p.skills, h.derefList p.tools,
                  h.derefList p.responsibilities]
                postings := h.postings ++
                  [h.copiedPosting p (keywordScore kws (h.valueOf p))] }
              with ⟨h1, res1⟩
          rw [hrec] at hc
          simp only [Prod.mk.injEq] at hc
          rcases hc with ⟨rfl, rfl⟩
          rcases ih _ _ _ hrec with ⟨⟨nl, hnl⟩, ⟨np, hnp⟩, hmem⟩
          simp only at hnl hnp
          refine ⟨⟨[h.derefList p.skills, h.derefList p.tools,
              h.derefList p.responsibilities] ++ nl, by rw [hnl, List.append_assoc]⟩,
            ⟨[h.copiedPosting p (keywordScore kws (h.valueOf p))] ++ np,
              by rw [hnp, List.append_assoc]⟩, ?_⟩
          intro b hb
          rcases List.mem_cons.mp hb with rfl | hbr
          · refine ⟨Nat.le_refl _, ?_⟩
            refine ⟨h.copiedPosting p (keywordScore kws (h.valueOf p)), ?_,
              Nat.le_refl _, Nat.le_add_right _ _, Nat.le_add_right _ _⟩
            rw [hnp, List.append_assoc, List.get?_append_right (Nat.le_refl _)]
            simp
          · rcases hmem b hbr with ⟨hle, q, hq, h1', h2', h3'⟩
            refine ⟨?_, q, hq, ?_, ?_, ?_⟩
            · exact Nat.le_trans (Nat.le_succ _) (by simpa using hle)
            · exact Nat.le_trans (Nat.le_add_right _ _) (by simpa using h1')
            · exact Nat.le_trans (Nat.le_add_right _ _) (by simpa using h2')
            · exact Nat.le_trans (Nat.le_add_right _ _) (by simpa using h3')
        · rw [if_neg hs] at hc
          exact ih h h' res hc
      · rw [if_neg hp] at hc
        exact ih h h' res hc

end JobFinder

/-- A concrete one-posting heap: the posting object at address 0 owns the
list objects at addresses 0, 1, 2. -/
def sampleHeap : Heap :=
  { lists := [["Python".data], ["Git".data], ["Ship".data]]
    postings := [{
      id := "J-1".data
      title := "T".data
      company := "C".data
      location := "Remote".data
      type := "ft".data
      summary := "S".data
      skills := 0
      tools := 1
      experience_level := "Sr".data
      description := "D".data
      responsibilities := 2 }] }

/-- C4 counterexample: `search([], None)` takes the early return
`list(self.jobs)`, which is a fresh Python list holding the *same* stored
posting objects — here the returned address `0` is exactly the stored
catalog address — so the returned postings are not independent copies, and
mutating the returned posting's score does change the stored posting. -/
theorem c4_alias_counterexample :
    JobFinder.searchH [] none sampleHeap [0] = .ok (sampleHeap, [0]) ∧
    (Heap.writeScore sampleHeap 0 99).postings.get? 0 ≠ sampleHeap.postings.get? 0 :=
  ⟨by rfl, by decide⟩

/-- C4 (amended): when the normalized keyword list is non-empty or a
location pattern is supplied (every case except the early `list(self.jobs)`
return), the returned postings are independent copies: the call leaves
every stored object unchanged, every returned address is a fresh posting
object distinct from all stored catalog entries, mutating a returned
posting's score leaves the stored postings exactly as before the call, and
mutating any of a returned posting's three list attributes leaves every
pre-existing list object unchanged.  In the excluded early-return case the
very postings of the catalog are returned (see the counterexample), not
copies. -/
theorem c4_copies_and_frame (keywords : List Str) (location : Option Str)
    (h : Heap) (jobAddrs : List Nat) (h' : Heap) (res : List Nat)
    (hwf : ∀ a ∈ jobAddrs, a < h.postings.length)
    (hq : JobFinder.normalizeKeywords keywords ≠ [] ∨ Py.truthy location = true)
    (hres : JobFinder.searchH keywords location h jobAddrs = .ok (h', res)) :
    (∀ b, b < h.postings.length → h'.postings.get? b = h.postings.get? b) ∧
    (∀ b, b < h.lists.length → h'.lists.get? b = h.lists.get? b) ∧
    (∀ a ∈ res, a ∉ jobAddrs) ∧
    (∀ a ∈ res, ∀ s, ∀ b ∈ jobAddrs,
      (Heap.writeScore h' a s).postings.get? b = h.postings.get? b) ∧
    (∀ a ∈ res, ∀ p, h'.postings.get? a = some p →
      ∀ l : List Str, ∀ b, b < h.lists.length →
        (Heap.writeListObj h' p.skills l).lists.get? b = h.lists.get? b ∧
        (Heap.writeListObj h' p.tools l).lists.get? b = h.lists.get? b ∧
        (Heap.writeListObj h' p.responsibilities l).lists.get? b = h.lists.get? b) := by
  unfold JobFinder.searchH at hres
  rw [if_neg (by
    intro hcond
    rcases hq with hq | hq
    · exact hq hcond.1
    · exact hcond.2 hq)] at hres
  cases hcl : JobFinder.compileLocation location with
  | error e => rw [hcl] at hres; exact absurd hres (by simp)
  | ok lr =>
    rw [hcl] at hres
    rcases hcollect : JobFinder.collectMatchesH (JobFinder.normalizeKeywords keywords)
        lr jobAddrs h with ⟨h1, matched⟩
    simp only [hcollect, Except.ok.injEq, Prod.mk.injEq] at hres
    rcases hres with ⟨rfl, rfl⟩
    rcases JobFinder.collectMatchesH_spec _ lr jobAddrs h h1 matched hcollect with
      ⟨⟨nl, hnl⟩, ⟨np, hnp⟩, hmem⟩
    have hmem' : ∀ a ∈ StableSort.sortDesc h1.scoreAt matched, a ∈ matched :=
      fun a ha => StableSort.mem_sortDesc.mp ha
    have hpost : ∀ b, b < h.postings.length → h1.postings.get? b = h.postings.get? b := by
      intro b hb
      rw [hnp]
      exact List.get?_append hb
    have hlists : ∀ b, b < h.lists.length → h1.lists.get? b = h.lists.get? b := by
      intro b hb
      rw [hnl]
      exact List.get?_append hb
    have hfresh : ∀ a ∈ StableSort.sortDesc h1.scoreAt matched, h.postings.length ≤ a :=
      fun a ha => (hmem a (hmem' a ha)).1
    refine ⟨hpost, hlists, ?_, ?_, ?_⟩
    · intro a ha hmemJob
      exact absurd (hwf a hmemJob) (Nat.not_lt_of_le (hfresh a ha))
    · intro a ha s b hb
      have hba : b ≠ a :=
        Nat.ne_of_lt (Nat.lt_of_lt_of_le (hwf b hb) (hfresh a ha))
      unfold Heap.writeScore
      rw [listModify_get?_ne _ _ _ _ (fun he => hba he.symm)]
      exact hpost b (hwf b hb)
    · intro a ha p hp l b hb
      rcases hmem a (hmem' a ha) with ⟨_, q, hq, hsk, hto, hre⟩
      have hpq : p = q := by
        rw [hp] at hq
        simpa using hq
      subst hpq
      have hb1 : b ≠ p.skills := Nat.ne_of_lt (Nat.lt_of_lt_of_le hb hsk)
      have hb2 : b ≠ p.tools := Nat.ne_of_lt (Nat.lt_of_lt_of_le hb hto)
      have hb3 : b ≠ p.responsibilities := Nat.ne_of_lt (Nat.lt_of_lt_of_le hb hre)
      unfold Heap.writeListObj
      refine ⟨?_, ?_, ?_⟩
      · rw [listModify_get?_ne _ _ _ _ (fun he => hb1 he.symm)]
        exact hlists b hb
      · rw [listModify_get?_ne _ _ _ _ (fun he => hb2 he.symm)]
        exact hlists b hb
      · rw [listModify_get?_ne _ _ _ _ (fun he => hb3 he.symm)]
        exact hlists b hb


/-- The heap after `searchH(["python"], None)` on `sampleHeap`: three list
copies and one posting copy (score 1) were allocated. -/
def c4ResultHeap : Heap :=
  { lists := [["Python".data], ["Git".data], ["Ship".data],
      ["Python".data], ["Git".data], ["Ship".data]]
    postings := [{
      id := "J-1".data
      title := "T".data
      company := "C".data
      location := "Remote".data
      type := "ft".data
      summary := "S".data
      skills := 0
      tools := 1
      experience_level := "Sr".data
      description := "D".data
      responsibilities := 2 }, {
      id := "J-1".data
      title := "T".data
      company := "C".data
      location := "Remote".data
      type := "ft".data
      summary := "S".data
      skills := 3
      tools := 4
      experience_level := "Sr".data
      description := "D".data
      responsibilities := 5
      score := 1 }] }

/-- C4 witness: the amended theorem at `searchH(["python"], None)` on the
concrete one-posting heap, whose single result is the fresh copy at
address 1. -/
theorem c4_copies_and_frame_witness :
    (∀ b, b < sampleHeap.postings.length →
      c4ResultHeap.postings.get? b = sampleHeap.postings.get? b) ∧
    (∀ b, b < sampleHeap.lists.length →
      c4ResultHeap.lists.get? b = sampleHeap.lists.get? b) ∧
    (∀ a ∈ [1], a ∉ [0]) ∧
    (∀ a ∈ [1], ∀ s, ∀ b ∈ [0],
      (Heap.writeScore c4ResultHeap a s).postings.get? b = sampleHeap.postings.get? b) ∧
    (∀ a ∈ [1], ∀ p, c4ResultHeap.postings.get? a = some p →
      ∀ l : List Str, ∀ b, b < sampleHeap.lists.length →
        (Heap.writeListObj c4ResultHeap p.skills l).lists.get? b = sampleHeap.lists.get? b ∧
        (Heap.writeListObj c4ResultHeap p.tools l).lists.get? b = sampleHeap.lists.get? b ∧
        (Heap.writeListObj c4ResultHeap p.responsibilities l).lists.get? b =
          sampleHeap.lists.get? b) :=
  c4_copies_and_frame ["python".data] none sampleHeap [0] c4ResultHeap [1]
    (by decide) (Or.inl (by decide)) (by rfl)

/-!
Claims about `resume_modifier.py`
-/

/-- C5 counterexample: the resume line "a," splits into the tokens
"a" and "", so the job skill " " — whose normalized form is "" — is in the
set obtained by splitting on commas and normalizing each resulting token;
yet `match_skills` returns nothing, because `_tokenize` additionally
discards empty tokens. -/
theorem c5_empty_token_counterexample :
    ResumeModifier.match_skills ["a,".data] [" ".data] = [] ∧
    ResumeModifier.normalize_token " ".data ∈
      (["a,".data].map (fun item =>
        (Py.splitChar ',' item).map ResumeModifier.normalize_token)).flatten ∧
    ([] : List Str) ≠ [" ".data] := by
  refine ⟨by rfl, ?_, by decide⟩
  decide

/-- C5 (amended): `match_skills` returns exactly those job skills whose
normalized form (trimmed, lower-cased) is present in the set obtained by
splitting every resume skill line on commas, normalizing each resulting
token, and discarding tokens that normalize to the empty string; the
returned sequence is a sublist of the job posting's skill list, hence
preserves the job posting's order, never the resume's. -/
theorem c5_match_skills_characterization (resume_skills job_skills : List Str) :
    ResumeModifier.match_skills resume_skills job_skills =
      job_skills.filter (fun skill =>
        decide (ResumeModifier.normalize_token skill ∈
          ResumeModifier.tokenize resume_skills)) ∧
    (ResumeModifier.match_skills resume_skills job_skills).Sublist job_skills ∧
    (∀ s : Str, s ∈ ResumeModifier.tokenize resume_skills ↔
      s ≠ [] ∧ ∃ item ∈ resume_skills, ∃ part ∈ Py.splitChar ',' item,
        ResumeModifier.normalize_token part = s) := by
  have hfil : ResumeModifier.match_skills resume_skills job_skills =
      job_skills.filter (fun skill =>
        decide (ResumeModifier.normalize_token skill ∈
          ResumeModifier.tokenize resume_skills)) := by
    unfold ResumeModifier.match_skills
    refine List.filter_congr ?_
    intro s _
    simp [List.contains, List.elem_eq_mem]
  refine ⟨hfil, ?_, ?_⟩
  · rw [hfil]
    exact List.filter_sublist _
  · intro s
    unfold ResumeModifier.tokenize
    simp only [List.mem_filter, List.mem_flatten, List.mem_map, decide_eq_true_eq]
    constructor
    · rintro ⟨⟨ts, ⟨item, hitem, rfl⟩, hs⟩, hne⟩
      rcases List.mem_map.mp hs with ⟨part, hpart, rfl⟩
      exact ⟨by simpa using hne, item, hitem, part, hpart, rfl⟩
    · rintro ⟨hne, item, hitem, part, hpart, rfl⟩
      exact ⟨⟨(Py.splitChar ',' item).map ResumeModifier.normalize_token,
        ⟨item, hitem, rfl⟩, List.mem_map.mpr ⟨part, hpart, rfl⟩⟩, by simpa using hne⟩

/-- C5 witness: the characterization at the repository's own test inputs. -/
theorem c5_match_skills_characterization_witness :
    (ResumeModifier.match_skills
        ["Python".data, "Machine Learning".data, "Public Speaking".data]
        ["Python".data, "Machine Learning".data, "SQL".data] =
      ["Python".data, "Machine Learning".data, "SQL".data].filter (fun skill =>
        decide (ResumeModifier.normalize_token skill ∈
          ResumeModifier.tokenize
            ["Python".data, "Machine Learning".data, "Public Speaking".data]))) ∧
    (ResumeModifier.match_skills
        ["Python".data, "Machine Learning".data, "Public Speaking".data]
        ["Python".data, "Machine Learning".data, "SQL".data]).Sublist
      ["Python".data, "Machine Learning".data, "SQL".data] ∧
    (∀ s : Str, s ∈ ResumeModifier.tokenize
        ["Python".data, "Machine Learning".data, "Public Speaking".data] ↔
      s ≠ [] ∧ ∃ item ∈ ["Python".data, "Machine Learning".data, "Public Speaking".data],
        ∃ part ∈ Py.splitChar ',' item, ResumeModifier.normalize_token part = s) :=
  c5_match_skills_characterization
    ["Python".data, "Machine Learning".data, "Public Speaking".data]
    ["Python".data, "Machine Learning".data, "SQL".data]

/-- C6: `tailor_summary` returns exactly the three lines joined by line
breaks — the literal target-role line, the whitespace-trimmed base summary
unmodified, and a focus line; when the matched-skills sequence is non-empty
the focus line names the first up to 5 matched skills comma-joined, and
when it is empty the result contains the literal substring
"Eager to ramp up". -/
theorem c6_tailor_summary_shape (base : Str) (job : JobPosting)
    (matched : List Str) :
    (∃ focus : Str,
      ResumeModifier.tailor_summary base job matched =
        ("Target Role: ".data ++ job.title ++ " at ".data ++ job.company ++ ".".data)
          ++ "\n".data ++ Py.strip base ++ "\n".data
          ++ ("Focus for this application: ".data ++ focus) ∧
      (matched ≠ [] →
        focus = "Key strengths aligned with this role include ".data
          ++ Py.join ", ".data (matched.take 5) ++ ".".data)) ∧
    (matched = [] →
      Py.contains "Eager to ramp up".data
        (ResumeModifier.tailor_summary base job matched) = true) := by
  constructor
  · by_cases hm : matched ≠ []
    · refine ⟨"Key strengths aligned with this role include ".data
        ++ Py.join ", ".data (matched.take 5) ++ ".".data, ?_, fun _ => rfl⟩
      unfold ResumeModifier.tailor_summary
      rw [if_pos hm]
      simp
    · refine ⟨"Eager to ramp up on the team's preferred tools and practices.".data,
        ?_, fun hc => absurd hc hm⟩
      unfold ResumeModifier.tailor_summary
      rw [if_neg hm]
      simp
  · intro hm
    subst hm
    unfold ResumeModifier.tailor_summary
    rw [if_neg (by simp)]
    rw [Py.contains_iff]
    refine ⟨"Target Role: ".data ++ job.title ++ " at ".data ++ job.company ++ ".\n".data
      ++ Py.strip base ++ "\n".data ++ "Focus for this application: ".data,
      " on the team's preferred tools and practices.".data, ?_⟩
    simp only [List.append_assoc]
    norm_num

/-- C6 witness: the shape theorem at a concrete posting, once with no
matched skills (exercising the "Eager to ramp up" clause) and once with a
matched skill (exercising the focus-line clause). -/
theorem c6_tailor_summary_shape_witness :
    ((∃ focus : Str,
      ResumeModifier.tailor_summary "Seasoned PM".data sampleJobNY [] =
        ("Target Role: ".data ++ sampleJobNY.title ++ " at ".data
            ++ sampleJobNY.company ++ ".".data)
          ++ "\n".data ++ Py.strip "Seasoned PM".data ++ "\n".data
          ++ ("Focus for this application: ".data ++ focus) ∧
      ([] ≠ ([] : List Str) →
        focus = "Key strengths aligned with this role include ".data
          ++ Py.join ", ".data (([] : List Str).take 5) ++ ".".data)) ∧
    (([] : List Str) = [] →
      Py.contains "Eager to ramp up".data
        (ResumeModifier.tailor_summary "Seasoned PM".data sampleJobNY []) = true)) ∧
    (∃ focus : Str,
      ResumeModifier.tailor_summary "Seasoned PM".data sampleJobNY ["Roadmapping".data] =
        ("Target Role: ".data ++ sampleJobNY.title ++ " at ".data
            ++ sampleJobNY.company ++ ".".data)
          ++ "\n".data ++ Py.strip "Seasoned PM".data ++ "\n".data
          ++ ("Focus for this application: ".data ++ focus) ∧
      (["Roadmapping".data] ≠ [] →
        focus = "Key strengths aligned with this role include ".data
          ++ Py.join ", ".data (["Roadmapping".data].take 5) ++ ".".data)) :=
  ⟨c6_tailor_summary_shape "Seasoned PM".data sampleJobNY [],
   (c6_tailor_summary_shape "Seasoned PM".data sampleJobNY ["Roadmapping".data]).1⟩

/-- The skill-line cleanup as the spec words it (for comparison with the
code): strip surrounding whitespace and remove one leading "- " marker,
and nothing else. -/
def claimedSkillLine (line : Str) : Str :=
  let t := Py.strip line
  if "- ".data.isPrefixOf t then Py.strip (t.drop 2) else t

/-- C7 counterexample: on the skills-section line "- SQLx -" (parsed from
the resume "SKILLS\n- SQLx -\n"), the code's `line.strip("- ")` removes the
trailing " -" as well — `strip` takes a character *set*, not a prefix — so
the extracted skill line is "SQLx", not the "SQLx -" the claim's rule
produces. -/
theorem c7_strip_set_counterexample :
    ResumeModifier.splitSections "SKILLS\n- SQLx -\n".data =
      [("skills".data, "- SQLx -".data)] ∧
    ResumeModifier.extract_skill_lines "- SQLx -".data = ["SQLx".data] ∧
    claimedSkillLine "- SQLx -".data = "SQLx -".data ∧
    "SQLx".data ≠ "SQLx -".data := by
  refine ⟨by decide, by decide, by decide, by decide⟩

/-- Any list is its `stripChars` core surrounded by characters of the
stripped set. -/
theorem Py.stripChars_decomp (chars : Str) (l : Str) :
    ∃ pre post, l = pre ++ Py.stripChars chars l ++ post ∧
      (∀ c ∈ pre, chars.contains c = true) ∧
      (∀ c ∈ post, chars.contains c = true) := by
  unfold Py.stripChars Py.dropTrailing
  have h1 : l = l.takeWhile (fun c => chars.contains c)
      ++ l.dropWhile (fun c => chars.contains c) :=
    (List.takeWhile_append_dropWhile _ _).symm
  have h2 : l.dropWhile (fun c => chars.contains c) =
      ((l.dropWhile (fun c => chars.contains c)).reverse.dropWhile
        (fun c => chars.contains c)).reverse ++
      ((l.dropWhile (fun c => chars.contains c)).reverse.takeWhile
        (fun c => chars.contains c)).reverse := by
    have h3 := congrArg List.reverse
      (List.takeWhile_append_dropWhile (p := fun c => chars.contains c)
        (l := (l.dropWhile (fun c => chars.contains c)).reverse))
    rw [List.reverse_append, List.reverse_reverse] at h3
    exact h3.symm
  refine ⟨l.takeWhile (fun c => chars.contains c),
    ((l.dropWhile (fun c => chars.contains c)).reverse.takeWhile
      (fun c => chars.contains c)).reverse, ?_, ?_, ?_⟩
  · conv_lhs => rw [h1, h2]
    rw [List.append_assoc]
  · intro c hc
    exact List.mem_takeWhile_imp hc
  · intro c hc
    exact List.mem_takeWhile_imp (List.mem_reverse.mp hc)

/-- C7 (amended): the skill lines used for matching are obtained by
splitting the skills section into lines, discarding lines that are blank
after trimming, and stripping each remaining line of *all* leading and
trailing characters drawn from the two-character set {'-', ' '} (Python's
`strip("- ")`), keeping the line's interior intact: every produced line is
`stripChars "- "` of a kept source line, and sits inside that source line
between a prefix and a suffix made only of '-' and ' '. -/
theorem c7_skill_lines_characterization (s : Str) :
    (∀ x ∈ ResumeModifier.extract_skill_lines s,
      ∃ line ∈ Py.splitlines s, Py.strip line ≠ [] ∧
        x = Py.stripChars "- ".data line ∧
        ∃ pre post, line = pre ++ x ++ post ∧
          (∀ c ∈ pre, c = '-' ∨ c = ' ') ∧ (∀ c ∈ post, c = '-' ∨ c = ' ')) ∧
    (∀ line ∈ Py.splitlines s, Py.strip line ≠ [] →
      Py.stripChars "- ".data line ∈ ResumeModifier.extract_skill_lines s) := by
  constructor
  · intro x hx
    unfold ResumeModifier.extract_skill_lines at hx
    rcases List.mem_map.mp hx with ⟨line, hline, rfl⟩
    rcases List.mem_filter.mp hline with ⟨hmem, hne⟩
    refine ⟨line, hmem, by simpa using hne, rfl, ?_⟩
    rcases Py.stripChars_decomp "- ".data line with ⟨pre, post, hdec, hpre, hpost⟩
    refine ⟨pre, post, hdec, ?_, ?_⟩
    · intro c hc
      have h' := hpre c hc
      rw [List.contains_iff_exists_mem_beq] at h'
      rcases h' with ⟨a, ha, hb⟩
      have hca : c = a := by simpa using hb
      subst hca
      simpa using ha
    · intro c hc
      have h' := hpost c hc
      rw [List.contains_iff_exists_mem_beq] at h'
      rcases h' with ⟨a, ha, hb⟩
      have hca : c = a := by simpa using hb
      subst hca
      simpa using ha
  · intro line hline hne
    unfold ResumeModifier.extract_skill_lines
    exact List.mem_map.mpr ⟨line, List.mem_filter.mpr ⟨hline, by simpa using hne⟩, rfl⟩

/-- C7 witness: the characterization applied to a concrete section line. -/
theorem c7_skill_lines_characterization_witness :
    Py.stripChars "- ".data "- Python".data ∈
      ResumeModifier.extract_skill_lines "- Python\n- SQL".data :=
  (c7_skill_lines_characterization "- Python\n- SQL".data).2 "- Python".data
    (by decide) (by decide)

/-- C10: while no header has been seen, the `current_header` guard in
`_split_sections` is falsy, so encountering the first recognized header
commits nothing and does not clear the line buffer: all pre-header lines
stay buffered (appended before the header's own body lines) and end up in
the body committed to the first header's key — they are neither dropped nor
committed under the "summary" fallback. -/
theorem c10_preheader_lines_merged (pre : List Str) (hline : Str) (rest : List Str)
    (sections : List (Str × Str)) (buf : List Str)
    (hpre : ∀ l ∈ pre, ResumeModifier.isHeaderLine l = false)
    (hh : ResumeModifier.isHeaderLine hline = true) :
    ResumeModifier.splitGo (pre ++ hline :: rest) sections [] buf =
      ResumeModifier.splitGo rest sections (Py.lower (Py.strip hline)) (buf ++ pre) := by
  induction pre generalizing buf with
  | nil =>
    rw [List.nil_append, List.append_nil]
    simp only [ResumeModifier.splitGo]
    simp [hh]
  | cons l pre' ih =>
    have hl : ResumeModifier.isHeaderLine l = false := hpre l (List.mem_cons_self l pre')
    rw [List.cons_append]
    simp only [ResumeModifier.splitGo]
    rw [hl]
    simp only [Bool.false_eq_true, if_false]
    rw [ih (buf ++ [l]) (fun x hx => hpre x (List.mem_cons_of_mem l hx)),
      List.append_assoc]
    rfl

/-- C10 witness: the merge on a concrete resume: the pre-header line
"Intro" ends up inside the body stored under the first header's key
"skills", and no "summary" entry is created. -/
theorem c10_preheader_lines_merged_witness :
    (ResumeModifier.splitGo (["Intro".data] ++ "SKILLS".data :: ["- a".data]) [] [] [] =
      ResumeModifier.splitGo ["- a".data] [] (Py.lower (Py.strip "SKILLS".data))
        ([] ++ ["Intro".data])) ∧
    ResumeModifier.splitSections "Intro\nSKILLS\n- a".data =
      [("skills".data, "Intro\n- a".data)] :=
  ⟨c10_preheader_lines_merged ["Intro".data] "SKILLS".data ["- a".data] [] []
      (by decide) (by decide),
   by decide⟩

/-!
Dict and assembly lemmas for `tailor_resume`
-/

theorem mem_keys_dictSet (k : Str) (v : Str) (d : List (Str × Str)) (x : Str) :
    x ∈ (dictSet k v d).map Prod.fst ↔ x = k ∨ x ∈ d.map Prod.fst := by
  induction d with
  | nil => simp [dictSet]
  | cons kv rest ih =>
    rcases kv with ⟨k', v'⟩
    by_cases hk : k' = k
    · subst hk
      simp [dictSet]
    · simp only [dictSet, if_neg hk, List.map_cons, List.mem_cons, ih]
      tauto

theorem dictSet_keys_nodup (k : Str) (v : Str) (d : List (Str × Str))
    (h : (d.map Prod.fst).Nodup) : ((dictSet k v d).map Prod.fst).Nodup := by
  induction d with
  | nil => simp [dictSet]
  | cons kv rest ih =>
    rcases kv with ⟨k', v'⟩
    rcases List.nodup_cons.mp h with ⟨hk', hrest⟩
    by_cases hk : k' = k
    · subst hk
      simpa [dictSet] using h
    · simp only [dictSet, if_neg hk, List.map_cons]
      refine List.nodup_cons.mpr ⟨?_, ih hrest⟩
      intro hmem
      rcases (mem_keys_dictSet k v rest k').mp hmem with rfl | hmem'
      · exact hk rfl
      · exact hk' hmem'

theorem dictGet?_dictSet_self (k : Str) (v : Str) (d : List (Str × Str)) :
    dictGet? k (dictSet k v d) = some v := by
  induction d with
  | nil => simp [dictSet, dictGet?]
  | cons kv rest ih =>
    rcases kv with ⟨k', v'⟩
    by_cases hk : k' = k
    · subst hk
      simp [dictSet, dictGet?]
    · simp [dictSet, dictGet?, hk, ih]

theorem dictGet?_dictSet_ne (k k' : Str) (v : Str) (d : List (Str × Str))
    (h : k' ≠ k) : dictGet? k' (dictSet k v d) = dictGet? k' d := by
  induction d with
  | nil => simp [dictSet, dictGet?, Ne.symm h]
  | cons kv rest ih =>
    rcases kv with ⟨k'', v''⟩
    by_cases hk : k'' = k
    · subst hk
      simp [dictSet, dictGet?, Ne.symm h]
    · simp [dictSet, dictGet?, hk, ih]

theorem dictGet?_of_mem_nodup {d : List (Str × Str)} {k v : Str}
    (hnd : (d.map Prod.fst).Nodup) (hmem : (k, v) ∈ d) :
    dictGet? k d = some v := by
  induction d with
  | nil => cases hmem
  | cons kv rest ih =>
    rcases kv with ⟨k', v'⟩
    rcases List.nodup_cons.mp hnd with ⟨hk', hrest⟩
    rcases List.mem_cons.mp hmem with heq | hmem'
    · rcases Prod.mk.injEq _ _ _ _ ▸ heq with ⟨rfl, rfl⟩
      simp [dictGet?]
    · have hne : k' ≠ k := by
        intro he
        subst he
        exact hk' (List.mem_map.mpr ⟨(k', v), hmem', rfl⟩)
      simp only [dictGet?, if_neg hne]
      exact ih hrest hmem'

theorem mem_dictSet_of_ne {d : List (Str × Str)} {kv : Str × Str} {k v : Str}
    (hmem : kv ∈ d) (hne : kv.1 ≠ k) : kv ∈ dictSet k v d := by
  induction d with
  | nil => cases hmem
  | cons kv' rest ih =>
    rcases kv' with ⟨k', v'⟩
    by_cases hk : k' = k
    · subst hk
      rcases List.mem_cons.mp hmem with heq | hmem'
      · exact absurd (congrArg Prod.fst heq) hne
      · simp [dictSet, List.mem_cons, hmem']
    · simp only [dictSet, if_neg hk]
      rcases List.mem_cons.mp hmem with heq | hmem'
      · exact heq ▸ List.mem_cons_self _ _
      · exact List.mem_cons_of_mem _ (ih hmem')

theorem splitGo_keys_nodup (lines : List Str) :
    ∀ (sections : List (Str × Str)) (current : Str) (buffer : List Str),
      ((sections.map Prod.fst).Nodup) →
      (((ResumeModifier.splitGo lines sections current buffer).map Prod.fst).Nodup) := by
  induction lines with
  | nil =>
    intro sections current buffer h
    unfold ResumeModifier.splitGo
    by_cases hc : current ≠ []
    · rw [if_pos hc]
      exact dictSet_keys_nodup _ _ _ h
    · rw [if_neg hc]
      by_cases hb : buffer ≠ []
      · rw [if_pos hb]
        exact dictSet_keys_nodup _ _ _ h
      · rw [if_neg hb]
        exact h
  | cons line rest ih =>
    intro sections current buffer h
    unfold ResumeModifier.splitGo
    by_cases hl : ResumeModifier.isHeaderLine line = true
    · rw [if_pos hl]
      by_cases hc : current ≠ []
      · rw [if_pos hc, if_pos hc]
        exact ih _ _ _ (dictSet_keys_nodup _ _ _ h)
      · rw [if_neg hc, if_neg hc]
        exact ih _ _ _ h
    · rw [if_neg hl]
      exact ih _ _ _ h

namespace ResumeModifier

/-- What the canonical pass renders for a key: the formatted block when the
key is present with non-empty trimmed content. -/
def renderKey (sections : List (Str × Str)) (k : Str) : Option Str :=
  match dictGet? k sections with
  | some v => if Py.strip v ≠ [] then some (format_section k v) else none
  | none => none

/-- The canonical pass renders exactly the present, non-empty keys, in
canonical order, and marks exactly those keys as seen. -/
theorem assembleOrdered_spec (sections : List (Str × Str)) :
    ∀ (keys : List Str) (seen : List Str), keys.Nodup →
      (∀ k ∈ keys, k ∉ seen) →
      (assembleOrdered sections keys seen).1 = keys.filterMap (renderKey sections) ∧
      (assembleOrdered sections keys seen).2 =
        seen ++ keys.filter (fun k => (renderKey sections k).isSome) := by
  intro keys
  induction keys with
  | nil =>
    intro seen _ _
    simp [assembleOrdered]
  | cons k rest ih =>
    intro seen hnd hdisj
    rcases List.nodup_cons.mp hnd with ⟨hk, hrest⟩
    have hdisjr : ∀ x ∈ rest, x ∉ seen := fun x hx => hdisj x (List.mem_cons_of_mem k hx)
    unfold assembleOrdered
    cases hget : dictGet? k sections with
    | none =>
      dsimp only
      rcases ih seen hrest hdisjr with ⟨h1, h2⟩
      refine ⟨?_, ?_⟩
      · rw [h1, List.filterMap_cons]
        simp [renderKey, hget]
      · rw [h2, List.filter_cons]
        simp [renderKey, hget]
    | some v =>
      dsimp only
      by_cases hv : Py.strip v ≠ []
      · have hcond : k ∉ seen ∧ Py.strip v ≠ [] :=
          ⟨hdisj k (List.mem_cons_self k rest), hv⟩
        rw [if_pos hcond]
        have hdisj' : ∀ x ∈ rest, x ∉ seen ++ [k] := by
          intro x hx hmem
          rcases List.mem_append.mp hmem with hmem | hmem
          · exact hdisjr x hx hmem
          · rcases List.mem_singleton.mp hmem with rfl
            exact hk hx
        rcases hA : assembleOrdered sections rest (seen ++ [k]) with ⟨blocks, seen'⟩
        rcases ih (seen ++ [k]) hrest hdisj' with ⟨h1, h2⟩
        rw [hA] at h1 h2
        dsimp only at h1 h2 ⊢
        refine ⟨?_, ?_⟩
        · rw [List.filterMap_cons]
          simp only [renderKey, hget, if_pos hv]
          rw [h1]
        · rw [List.filter_cons]
          simp only [renderKey, hget, if_pos hv, Option.isSome_some, if_true]
          rw [h2, List.append_assoc]
          rfl
      · have hveq : Py.strip v = [] := not_not.mp hv
        rw [if_neg (fun hc => hv hc.2)]
        rcases ih seen hrest hdisjr with ⟨h1, h2⟩
        refine ⟨?_, ?_⟩
        · rw [h1, List.filterMap_cons]
          simp [renderKey, hget, hveq]
        · rw [h2, List.filter_cons]
          simp [renderKey, hget, hveq]

/-- The remaining-sections pass renders exactly the non-canonical non-empty
sections, in first-encountered (dict) order. -/
theorem assembleRest_spec :
    ∀ (rest : List (Str × Str)) (seen : List Str),
      ((rest.map Prod.fst).Nodup) →
      (∀ kv ∈ rest, (kv.1 ∈ seen ↔ kv.1 ∈ orderedSections ∧ Py.strip kv.2 ≠ [])) →
      assembleRest rest seen =
        (rest.filter (fun kv =>
          decide (kv.1 ∉ orderedSections ∧ Py.strip kv.2 ≠ []))).map
          (fun kv => format_section kv.1 kv.2) := by
  intro rest
  induction rest with
  | nil => intro seen _ _; rfl
  | cons kv rest' ih =>
    intro seen hnd hseen
    rcases kv with ⟨k, v⟩
    rw [List.map_cons] at hnd
    rcases List.nodup_cons.mp hnd with ⟨hk, hrest'⟩
    have hseenk := hseen (k, v) (List.mem_cons_self _ _)
    unfold assembleRest
    dsimp only at hseenk ⊢
    by_cases hv : Py.strip v ≠ []
    · by_cases hord : k ∈ orderedSections
      · have hks : k ∈ seen := hseenk.mpr ⟨hord, hv⟩
        rw [if_neg (fun hc => hc.1 hks)]
        rw [ih seen hrest' (fun x hx => hseen x (List.mem_cons_of_mem _ hx))]
        rw [List.filter_cons]
        rw [if_neg (by simp_all)]
      · have hks : k ∉ seen := fun hmem => hord (hseenk.mp hmem).1
        rw [if_pos ⟨hks, hv⟩]
        have hseen' : ∀ kv ∈ rest',
            (kv.1 ∈ seen ++ [k] ↔ kv.1 ∈ orderedSections ∧ Py.strip kv.2 ≠ []) := by
          intro kv hkv
          have hne : kv.1 ≠ k := by
            intro he
            exact hk (he ▸ List.mem_map.mpr ⟨kv, hkv, rfl⟩)
          rw [List.mem_append]
          simp only [List.mem_singleton, hne, or_false]
          exact hseen kv (List.mem_cons_of_mem _ hkv)
        rw [ih (seen ++ [k]) hrest' hseen']
        rw [List.filter_cons]
        rw [if_pos (by simp_all)]
        rfl
    · have hveq : Py.strip v = [] := not_not.mp hv
      rw [if_neg (fun hc => hv hc.2)]
      rw [ih seen hrest' (fun x hx => hseen x (List.mem_cons_of_mem _ hx))]
      rw [List.filter_cons]
      rw [if_neg (by simp_all)]

end ResumeModifier

/-!
String-level lemmas for the reassembled output
-/

theorem Py.join_infix_of_mem (sep : Str) :
    ∀ (parts : List Str) (x : Str), x ∈ parts →
      ∃ pre post, Py.join sep parts = pre ++ x ++ post := by
  intro parts
  induction parts with
  | nil => intro x hx; cases hx
  | cons y ys ih =>
    intro x hx
    cases ys with
    | nil =>
      rcases List.mem_singleton.mp hx with rfl
      exact ⟨[], [], by simp [Py.join]⟩
    | cons z zs =>
      rcases List.mem_cons.mp hx with rfl | hx'
      · exact ⟨[], sep ++ Py.join sep (z :: zs), by simp [Py.join]⟩
      · rcases ih x hx' with ⟨pre, post, hpp⟩
        exact ⟨y ++ sep ++ pre, post, by simp [Py.join, hpp]⟩

theorem Py.strip_eq_self (l : Str)
    (h1 : ∀ c, l.head? = some c → Py.isSpace c = false)
    (h2 : ∀ c, l.getLast? = some c → Py.isSpace c = false) :
    Py.strip l = l := by
  unfold Py.strip Py.dropTrailing
  have hdw : l.dropWhile Py.isSpace = l := by
    cases l with
    | nil => rfl
    | cons c cs =>
      rw [List.dropWhile_cons, if_neg (by simp [h1 c rfl])]
  rw [hdw]
  cases hrev : l.reverse with
  | nil =>
    have : l = [] := by simpa using congrArg List.reverse hrev
    simp [this]
  | cons c cs =>
    have hc : l.getLast? = some c := by
      rw [← List.head?_reverse, hrev]
      rfl
    rw [List.dropWhile_cons, if_neg (by simp [h2 c hc])]
    rw [← hrev, List.reverse_reverse]

theorem Py.strip_getLast?_not_space (l : Str) (c : Char)
    (h : (Py.strip l).getLast? = some c) : Py.isSpace c = false := by
  unfold Py.strip Py.dropTrailing at h
  rw [List.getLast?_reverse] at h
  have := List.head?_dropWhile_not Py.isSpace (l.dropWhile Py.isSpace).reverse
  rw [h] at this
  exact this

theorem Py.strip_ne_nil (l : Str) (c : Char) (hc : c ∈ l)
    (hns : Py.isSpace c = false) : Py.strip l ≠ [] := by
  intro hnil
  unfold Py.strip Py.dropTrailing at hnil
  have h1 : (l.dropWhile Py.isSpace).reverse.dropWhile Py.isSpace = [] := by
    simpa using congrArg List.reverse hnil
  have h2 : ∀ x ∈ (l.dropWhile Py.isSpace).reverse, Py.isSpace x = true :=
    List.dropWhile_eq_nil_iff.mp h1
  have hcm : c ∈ l.dropWhile Py.isSpace := by
    rcases List.mem_append.mp
        ((List.takeWhile_append_dropWhile Py.isSpace l) ▸ hc) with hmem | hmem
    · exact absurd (List.mem_takeWhile_imp hmem) (by simp [hns])
    · exact hmem
  have := h2 c (List.mem_reverse.mpr hcm)
  rw [hns] at this
  cases this

theorem Py.join_head?_of_ne_nil (sep : Str) (x : Str) (xs : List Str) (hx : x ≠ []) :
    (Py.join sep (x :: xs)).head? = x.head? := by
  cases xs with
  | nil => rfl
  | cons y ys =>
    show ((x ++ sep) ++ Py.join sep (y :: ys)).head? = x.head?
    cases x with
    | nil => exact absurd rfl hx
    | cons c cs => simp

theorem Py.join_getLast? (sep : Str) :
    ∀ (parts : List Str) (y : Str) (c : Char),
      parts.getLast? = some y → y.getLast? = some c →
      (Py.join sep parts).getLast? = some c := by
  intro parts
  induction parts with
  | nil => intro y c hy; cases hy
  | cons x xs ih =>
    intro y c hy hc
    cases xs with
    | nil =>
      rcases Option.some.injEq _ _ ▸ hy with rfl
      exact hc
    | cons z zs =>
      rw [List.getLast?_cons_cons] at hy
      have hJ := ih y c hy hc
      show (x ++ sep ++ Py.join sep (z :: zs)).getLast? = some c
      rw [List.append_assoc, List.getLast?_append, List.getLast?_append, hJ]
      rfl

namespace ResumeModifier

/-- The keys of the final sections dict are distinct. -/
theorem finalSections_keys_nodup (resume_text : Str) (job : JobPosting) :
    ((finalSections resume_text job).map Prod.fst).Nodup := by
  unfold finalSections
  apply dictSet_keys_nodup
  apply dictSet_keys_nodup
  exact splitGo_keys_nodup _ _ _ _ (by simp [splitSections])

/-- The `assembled` list is exactly: the canonical renders in canonical
order, followed by the remaining non-empty sections in first-encountered
order. -/
theorem assembledBlocks_eq (resume_text : Str) (job : JobPosting) :
    assembledBlocks resume_text job =
      orderedSections.filterMap (renderKey (finalSections resume_text job)) ++
      ((finalSections resume_text job).filter (fun kv =>
        decide (kv.1 ∉ orderedSections ∧ Py.strip kv.2 ≠ []))).map
        (fun kv => format_section kv.1 kv.2) := by
  have hordn : orderedSections.Nodup := by decide
  have hnds := finalSections_keys_nodup resume_text job
  rcases hA : assembleOrdered (finalSections resume_text job) orderedSections []
    with ⟨blocks, seen⟩
  rcases assembleOrdered_spec (finalSections resume_text job) orderedSections []
      hordn (fun k _ hk => List.not_mem_nil k hk) with ⟨h1, h2⟩
  rw [hA] at h1 h2
  dsimp only at h1 h2
  rw [List.nil_append] at h2
  have hseen : ∀ kv ∈ finalSections resume_text job,
      (kv.1 ∈ seen ↔ kv.1 ∈ orderedSections ∧ Py.strip kv.2 ≠ []) := by
    intro kv hkv
    rw [h2, List.mem_filter]
    have hget : dictGet? kv.1 (finalSections resume_text job) = some kv.2 :=
      dictGet?_of_mem_nodup hnds (by simpa using hkv)
    unfold renderKey
    rw [hget]
    by_cases hv : Py.strip kv.2 ≠ []
    · simp [hv]
    · simp [not_not.mp hv]
  unfold assembledBlocks
  simp only [hA]
  rw [h1, assembleRest_spec _ seen hnds hseen]

/-- Every assembled block is a formatted section with non-empty trimmed
body. -/
theorem block_shape (resume_text : Str) (job : JobPosting) :
    ∀ b ∈ assembledBlocks resume_text job,
      ∃ k v, b = format_section k v ∧ Py.strip v ≠ [] := by
  intro b hb
  rw [assembledBlocks_eq] at hb
  rcases List.mem_append.mp hb with hb | hb
  · rcases List.mem_filterMap.mp hb with ⟨k, _, hrk⟩
    unfold renderKey at hrk
    cases hget : dictGet? k (finalSections resume_text job) with
    | none => rw [hget] at hrk; cases hrk
    | some v =>
      rw [hget] at hrk
      dsimp only at hrk
      by_cases hv : Py.strip v ≠ []
      · rw [if_pos hv] at hrk
        exact ⟨k, v, (Option.some.injEq _ _ ▸ hrk).symm, hv⟩
      · rw [if_neg hv] at hrk
        cases hrk
  · rcases List.mem_map.mp hb with ⟨kv, hkv, rfl⟩
    rcases List.mem_filter.mp hkv with ⟨_, hcond⟩
    exact ⟨kv.1, kv.2, rfl, (of_decide_eq_true hcond).2⟩

/-- A formatted block is never the empty string. -/
theorem format_section_ne_nil (k v : Str) : format_section k v ≠ [] := by
  unfold format_section
  intro h
  rcases List.append_eq_nil.mp h with ⟨h1, _⟩
  rcases List.append_eq_nil.mp h1 with ⟨_, h2⟩
  cases h2

/-- A formatted block with non-empty trimmed body ends in a non-whitespace
character. -/
theorem format_section_getLast?_not_space (k v : Str) (hv : Py.strip v ≠ [])
    (c : Char) (h : (format_section k v).getLast? = some c) :
    Py.isSpace c = false := by
  unfold format_section at h
  rw [List.getLast?_append, List.getLast?_append] at h
  cases hsv : (Py.strip v).getLast? with
  | none =>
    exact absurd (List.getLast?_eq_none_iff.mp hsv) hv
  | some c' =>
    rw [hsv] at h
    have hcc : c' = c := by simpa using h
    subst hcc
    exact Py.strip_getLast?_not_space v c' hsv

/-- Every canonical key upper-cases to a block whose first character is not
whitespace. -/
theorem canonical_head_not_space :
    ∀ k ∈ orderedSections, ∀ (v : Str) (c : Char),
      (format_section k v).head? = some c → Py.isSpace c = false := by
  have hfin : ∀ k ∈ orderedSections,
      (Py.upper k).head?.map Py.isSpace = some false := by decide
  intro k hk v c hc
  unfold format_section at hc
  rw [List.append_assoc, List.head?_append] at hc
  have := hfin k hk
  cases hup : (Py.upper k).head? with
  | none => rw [hup] at this; cases this
  | some c' =>
    rw [hup] at this hc
    have hcc : c' = c := by simpa using hc
    subst hcc
    simpa using this

end ResumeModifier

namespace ResumeModifier

theorem renderKey_some {S : List (Str × Str)} {k b : Str}
    (h : renderKey S k = some b) :
    ∃ v, dictGet? k S = some v ∧ Py.strip v ≠ [] ∧ b = format_section k v := by
  unfold renderKey at h
  cases hget : dictGet? k S with
  | none => rw [hget] at h; cases h
  | some v =>
    rw [hget] at h
    dsimp only at h
    by_cases hv : Py.strip v ≠ []
    · rw [if_pos hv] at h
      exact ⟨v, rfl, hv, (Option.some.injEq _ _ ▸ h).symm⟩
    · rw [if_neg hv] at h
      cases h

/-- The canonical pass always renders something: the synthesized
"tailored summary" is present with non-empty trimmed content. -/
theorem canonical_blocks_ne_nil (resume_text : Str) (job : JobPosting) :
    orderedSections.filterMap (renderKey (finalSections resume_text job)) ≠ [] := by
  have hget : dictGet? "tailored summary".data (finalSections resume_text job) =
      some (tailoredSummaryOf resume_text job) := by
    unfold finalSections
    rw [dictGet?_dictSet_ne _ _ _ _ (by decide), dictGet?_dictSet_self]
  have hT : ('T' : Char) ∈ tailoredSummaryOf resume_text job := by
    simp only [tailoredSummaryOf, tailor_summary]
    apply List.mem_append_left
    apply List.mem_append_left
    apply List.mem_append_left
    apply List.mem_append_left
    apply List.mem_append_left
    apply List.mem_append_left
    apply List.mem_append_left
    apply List.mem_append_left
    decide
  have hts : Py.strip (tailoredSummaryOf resume_text job) ≠ [] :=
    Py.strip_ne_nil _ 'T' hT (by decide)
  intro hnil
  have hall := List.filterMap_eq_nil.mp hnil "tailored summary".data (by decide)
  unfold renderKey at hall
  rw [hget] at hall
  dsimp only at hall
  rw [if_pos hts] at hall
  cases hall

/-- Every assembled block reappears verbatim in the final output text. -/
theorem block_in_output (resume_text : Str) (job : JobPosting)
    (b : Str) (hb : b ∈ assembledBlocks resume_text job) :
    Py.contains b (tailor_resume resume_text job) = true := by
  rcases Py.join_infix_of_mem "\n\n".data (assembledBlocks resume_text job) b hb
    with ⟨pre, post, hJ⟩
  have hstrip : Py.strip (Py.join "\n\n".data (assembledBlocks resume_text job)) =
      Py.join "\n\n".data (assembledBlocks resume_text job) := by
    apply Py.strip_eq_self
    · intro c hc
      have hcne := canonical_blocks_ne_nil resume_text job
      rcases hcb : orderedSections.filterMap (renderKey (finalSections resume_text job))
        with _ | ⟨b0, bs⟩
      · exact absurd hcb hcne
      · have hblocks_eq : assembledBlocks resume_text job =
            b0 :: (bs ++ ((finalSections resume_text job).filter (fun kv =>
              decide (kv.1 ∉ orderedSections ∧ Py.strip kv.2 ≠ []))).map
              (fun kv => format_section kv.1 kv.2)) := by
          rw [assembledBlocks_eq, hcb]
          simp
        have hb0 : b0 ∈ orderedSections.filterMap
            (renderKey (finalSections resume_text job)) := by
          rw [hcb]
          exact List.mem_cons_self _ _
        rcases List.mem_filterMap.mp hb0 with ⟨k, hkord, hrk⟩
        rcases renderKey_some hrk with ⟨v, _, _, rfl⟩
        rw [hblocks_eq, Py.join_head?_of_ne_nil _ _ _ (format_section_ne_nil k v)] at hc
        exact canonical_head_not_space k hkord v c hc
    · intro c hc
      have hne : assembledBlocks resume_text job ≠ [] := List.ne_nil_of_mem hb
      rcases hlast : (assembledBlocks resume_text job).getLast? with _ | bl
      · exact absurd (List.getLast?_eq_none_iff.mp hlast) hne
      · have hblm : bl ∈ assembledBlocks resume_text job :=
          List.mem_of_getLast?_eq_some hlast
        rcases block_shape resume_text job bl hblm with ⟨k, v, rfl, hv⟩
        rcases hbl : (format_section k v).getLast? with _ | c'
        · exact absurd (List.getLast?_eq_none_iff.mp hbl) (format_section_ne_nil k v)
        · have hJl := Py.join_getLast? "\n\n".data
            (assembledBlocks resume_text job) _ _ hlast hbl
          rw [hJl] at hc
          have hcc : c' = c := by simpa using hc
          subst hcc
          exact format_section_getLast?_not_space k v hv c' hbl
  show Py.contains b
    (Py.strip (Py.join "\n\n".data (assembledBlocks resume_text job)) ++ "\n".data) = true
  rw [hstrip, Py.contains_iff]
  exact ⟨pre, post ++ "\n".data, by rw [hJ]; simp [List.append_assoc]⟩

end ResumeModifier

/-- C3: every section parsed from the input resume with non-empty trimmed
content, other than the keys "tailored summary" and "role highlights"
(which synthesis overwrites), reappears in the output of `tailor_resume`
as its formatted block — upper-cased header followed by its
whitespace-trimmed body verbatim — as a substring; and the assembled output
consists of the canonical renders in canonical order followed by every
non-canonical non-empty section, in the order first encountered: no such
section is dropped. -/
theorem c3_sections_round_trip (resume_text : Str) (job : JobPosting) :
    (∀ kv ∈ ResumeModifier.splitSections resume_text,
      kv.1 ≠ "tailored summary".data → kv.1 ≠ "role highlights".data →
      Py.strip kv.2 ≠ [] →
      Py.contains (ResumeModifier.format_section kv.1 kv.2)
        (ResumeModifier.tailor_resume resume_text job) = true) ∧
    ResumeModifier.assembledBlocks resume_text job =
      ResumeModifier.orderedSections.filterMap
        (ResumeModifier.renderKey (ResumeModifier.finalSections resume_text job)) ++
      ((ResumeModifier.finalSections resume_text job).filter (fun kv =>
        decide (kv.1 ∉ ResumeModifier.orderedSections ∧ Py.strip kv.2 ≠ []))).map
        (fun kv => ResumeModifier.format_section kv.1 kv.2) := by
  refine ⟨?_, ResumeModifier.assembledBlocks_eq resume_text job⟩
  intro kv hkv hts hrh hv
  have hmemS : kv ∈ ResumeModifier.finalSections resume_text job := by
    unfold ResumeModifier.finalSections
    exact mem_dictSet_of_ne (mem_dictSet_of_ne hkv hts) hrh
  have hget : dictGet? kv.1 (ResumeModifier.finalSections resume_text job) = some kv.2 :=
    dictGet?_of_mem_nodup (ResumeModifier.finalSections_keys_nodup resume_text job)
      (by simpa using hmemS)
  apply ResumeModifier.block_in_output
  rw [ResumeModifier.assembledBlocks_eq]
  by_cases hord : kv.1 ∈ ResumeModifier.orderedSections
  · apply List.mem_append_left
    apply List.mem_filterMap.mpr
    refine ⟨kv.1, hord, ?_⟩
    unfold ResumeModifier.renderKey
    rw [hget]
    dsimp only
    rw [if_pos hv]
  · apply List.mem_append_right
    apply List.mem_map.mpr
    refine ⟨kv, ?_, rfl⟩
    exact List.mem_filter.mpr ⟨hmemS, by simp [hord, hv]⟩

/-- C3 witness: the repository's own sample resume tailored against a
concrete posting — the parsed "name" section's block must reappear in the
output. -/
theorem c3_sections_round_trip_witness :
    Py.contains
      (ResumeModifier.format_section "name".data "Ada Lovelace".data)
      (ResumeModifier.tailor_resume
        "NAME\nAda Lovelace\n\nSUMMARY\nExperienced data professional.\n\nSKILLS\n- Python\n".data
        sampleJob) = true :=
  (c3_sections_round_trip
    "NAME\nAda Lovelace\n\nSUMMARY\nExperienced data professional.\n\nSKILLS\n- Python\n".data
    sampleJob).1 ("name".data, "Ada Lovelace".data)
    (by decide) (by decide) (by decide) (by decide)
